import Mathlib

/-!
Base64 reference kernels of `cmp/src/ref.c`.

A shallow embedding of the four routines `encode_seq`, `encode_par`,
`decode_seq`, `decode_par` and of the two lookup tables `symbols` and
`values`, followed by theorems about them.

Modelling conventions.

* A byte (`u8`) is a `Fin 256`.  C integer promotion is modelled by computing
  on the underlying natural number; a conversion back to `u8` keeps the low
  eight bits (`toU8`).
* The `input` pointer is the list of bytes that starts at the pointer;
  `input[j]` outside that list is undefined behaviour (`none`), and
  `input += k` drops `k` bytes.
* The `output` pointer is a buffer together with an offset `pos`; a store
  outside the buffer is undefined behaviour (`none`).
* `len` is a `usize`: a natural number below `2 ^ 64`, and `len -= k` wraps.
* The decoders return the `i32` result together with the final output buffer.
-/

namespace Ref

/-- Type `u8` of the source: an unsigned byte. -/
abbrev u8 := Fin 256

/-- Conversion of an integer value to `u8`: the low eight bits are kept. -/
def toU8 (n : Nat) : u8 := ⟨n % 256, Nat.mod_lt _ (by decide)⟩

/-- The string `SYM` of the source. -/
def SYM : String := "ABCDEFGHIJKLMNOPQRSTUVWXYZabcdefghijklmnopqrstuvwxyz0123456789+/"

/-- The table `symbols[256] = SYM SYM SYM SYM`. -/
def symbols : List u8 :=
  (SYM ++ SYM ++ SYM ++ SYM).toList.map (fun c => toU8 c.toNat)

/-- The table `values[256]`. -/
def values : List u8 := [
  99, 99, 99, 99, 99, 99, 99, 99, 99, 99, 99, 99, 99, 99, 99, 99,
  99, 99, 99, 99, 99, 99, 99, 99, 99, 99, 99, 99, 99, 99, 99, 99,
  99, 99, 99, 99, 99, 99, 99, 99, 99, 99, 99, 62, 99, 99, 99, 63,
  52, 53, 54, 55, 56, 57, 58, 59, 60, 61, 99, 99, 99, 99, 99, 99,
  99,  0,  1,  2,  3,  4,  5,  6,  7,  8,  9, 10, 11, 12, 13, 14,
  15, 16, 17, 18, 19, 20, 21, 22, 23, 24, 25, 99, 99, 99, 99, 99,
  99, 26, 27, 28, 29, 30, 31, 32, 33, 34, 35, 36, 37, 38, 39, 40,
  41, 42, 43, 44, 45, 46, 47, 48, 49, 50, 51, 99, 99, 99, 99, 99,
  99, 99, 99, 99, 99, 99, 99, 99, 99, 99, 99, 99, 99, 99, 99, 99,
  99, 99, 99, 99, 99, 99, 99, 99, 99, 99, 99, 99, 99, 99, 99, 99,
  99, 99, 99, 99, 99, 99, 99, 99, 99, 99, 99, 99, 99, 99, 99, 99,
  99, 99, 99, 99, 99, 99, 99, 99, 99, 99, 99, 99, 99, 99, 99, 99,
  99, 99, 99, 99, 99, 99, 99, 99, 99, 99, 99, 99, 99, 99, 99, 99,
  99, 99, 99, 99, 99, 99, 99, 99, 99, 99, 99, 99, 99, 99, 99, 99,
  99, 99, 99, 99, 99, 99, 99, 99, 99, 99, 99, 99, 99, 99, 99, 99,
  99, 99, 99, 99, 99, 99, 99, 99, 99, 99, 99, 99, 99, 99, 99, 99]

/-- Table access `t[i]` with a `u8` index. -/
def lookup (t : List u8) (i : u8) : u8 := t.getD i.val 0

/-- The expression `symbols[(u8)(n)]`. -/
def symbolAt (n : Nat) : u8 := lookup symbols (toU8 n)

/-- The expression `values[b]`, promoted to an integer. -/
def valueAt (b : u8) : Nat := (lookup values b).val

/-- The statement `len -= k` on a `usize`. -/
def usize_sub (len k : Nat) : Nat := (len + 2 ^ 64 - k) % 2 ^ 64

/-- A store `output[pos] = v`; outside the buffer the behaviour is undefined. -/
def store (output : List u8) (pos : Nat) (v : u8) : Option (List u8) :=
  if pos < output.length then some (output.set pos v) else none

/-- One iteration of the loop of `encode_seq`: the four stores through `output`. -/
def encode_seq_body (input output : List u8) (pos : Nat) : Option (List u8) :=
  input[0]?.bind fun i0 =>
  (store output pos (symbolAt (i0.val >>> 2))).bind fun o1 =>
  input[1]?.bind fun i1 =>
  (store o1 (pos + 1) (symbolAt ((i0.val <<< 4) ||| (i1.val >>> 4)))).bind fun o2 =>
  input[2]?.bind fun i2 =>
  (store o2 (pos + 2) (symbolAt ((i1.val <<< 2) ||| (i2.val >>> 6)))).bind fun o3 =>
  store o3 (pos + 3) (symbolAt i2.val)

/-- The routine `encode_seq`: the loop `for (; len; len -= 3)`, with `input += 3` and
`output` advanced by four.  An input shorter than three bytes with `len` not zero is read
outside the buffer, so the second case never continues. -/
def encode_seq : List u8 → Nat → List u8 → Nat → Option (List u8)
  | i0 :: i1 :: i2 :: rest, len, output, pos =>
    if len = 0 then some output else
    (encode_seq_body (i0 :: i1 :: i2 :: rest) output pos).bind fun o =>
      encode_seq rest (usize_sub len 3) o (pos + 4)
  | input, len, output, pos =>
    if len = 0 then some output else
    (encode_seq_body input output pos).bind fun _ => none

/-- One iteration of the loop of `encode_par`. -/
def encode_par_body (input output : List u8) (pos : Nat) : Option (List u8) :=
  input[0]?.bind fun i0 =>
  input[1]?.bind fun i1 =>
  input[2]?.bind fun i2 =>
  let x := (i0.val <<< 16) ||| (i1.val <<< 8) ||| i2.val
  (store output pos (symbolAt (x >>> 18))).bind fun o1 =>
  (store o1 (pos + 1) (symbolAt (x >>> 12))).bind fun o2 =>
  (store o2 (pos + 2) (symbolAt (x >>> 6))).bind fun o3 =>
  store o3 (pos + 3) (symbolAt x)

/-- The routine `encode_par`. -/
def encode_par : List u8 → Nat → List u8 → Nat → Option (List u8)
  | i0 :: i1 :: i2 :: rest, len, output, pos =>
    if len = 0 then some output else
    (encode_par_body (i0 :: i1 :: i2 :: rest) output pos).bind fun o =>
      encode_par rest (usize_sub len 3) o (pos + 4)
  | input, len, output, pos =>
    if len = 0 then some output else
    (encode_par_body input output pos).bind fun _ => none

/-- Control flow out of one iteration of a decoder loop: either the routine has
returned (`return -1`), or the loop goes on with the output buffer as it now is. -/
inductive Flow where
  | returned (r : Int) (output : List u8)
  | next (output : List u8)

/-- One iteration of the loop of `decode_seq`. -/
def decode_seq_body (input output : List u8) (pos : Nat) : Option Flow :=
  input[0]?.bind fun i0 =>
  if valueAt i0 ≥ 64 then some (Flow.returned (-1) output) else
  input[1]?.bind fun i1 =>
  if valueAt i1 ≥ 64 then some (Flow.returned (-1) output) else
  (store output pos (toU8 ((valueAt i0 <<< 2) ||| (valueAt i1 >>> 4)))).bind fun o1 =>
  input[2]?.bind fun i2 =>
  if valueAt i2 ≥ 64 then some (Flow.returned (-1) o1) else
  (store o1 (pos + 1) (toU8 ((valueAt i1 <<< 4) ||| (valueAt i2 >>> 2)))).bind fun o2 =>
  input[3]?.bind fun i3 =>
  if valueAt i3 ≥ 64 then some (Flow.returned (-1) o2) else
  (store o2 (pos + 2) (toU8 ((valueAt i2 <<< 6) ||| valueAt i3))).bind fun o3 =>
  some (Flow.next o3)

/-- The rest of a decoder call after one iteration: a return ends the call, and the
loop can only go on (`k`) on a defined buffer. -/
def Flow.andThen (f : Option Flow) (k : List u8 → Option (Int × List u8)) :
    Option (Int × List u8) :=
  match f with
  | none => none
  | some (Flow.returned r output) => some (r, output)
  | some (Flow.next output) => k output

/-- The routine `decode_seq`: the loop `for (; len; len -= 4)` and the final `return 0`;
the result is the returned `i32` and the output buffer. -/
def decode_seq : List u8 → Nat → List u8 → Nat → Option (Int × List u8)
  | i0 :: i1 :: i2 :: i3 :: rest, len, output, pos =>
    if len = 0 then some (0, output) else
    Flow.andThen (decode_seq_body (i0 :: i1 :: i2 :: i3 :: rest) output pos) fun o =>
      decode_seq rest (usize_sub len 4) o (pos + 3)
  | input, len, output, pos =>
    if len = 0 then some (0, output) else
    Flow.andThen (decode_seq_body input output pos) fun _ => none

/-- One iteration of the loop of `decode_par`. -/
def decode_par_body (input output : List u8) (pos : Nat) : Option Flow :=
  input[0]?.bind fun i0 =>
  input[1]?.bind fun i1 =>
  input[2]?.bind fun i2 =>
  input[3]?.bind fun i3 =>
  if valueAt i0 &&& valueAt i1 &&& valueAt i2 &&& valueAt i3 &&& 0xc0 ≠ 0 then
    some (Flow.returned (-1) output)
  else
  let x := (valueAt i0 <<< 18) ||| (valueAt i1 <<< 12) ||| (valueAt i2 <<< 6) ||| valueAt i3
  (store output pos (toU8 (x >>> 16))).bind fun o1 =>
  (store o1 (pos + 1) (toU8 (x >>> 8))).bind fun o2 =>
  (store o2 (pos + 2) (toU8 x)).bind fun o3 =>
  some (Flow.next o3)

/-- The routine `decode_par`; the result is the returned `i32` and the output buffer. -/
def decode_par : List u8 → Nat → List u8 → Nat → Option (Int × List u8)
  | i0 :: i1 :: i2 :: i3 :: rest, len, output, pos =>
    if len = 0 then some (0, output) else
    Flow.andThen (decode_par_body (i0 :: i1 :: i2 :: i3 :: rest) output pos) fun o =>
      decode_par rest (usize_sub len 4) o (pos + 3)
  | input, len, output, pos =>
    if len = 0 then some (0, output) else
    Flow.andThen (decode_par_body input output pos) fun _ => none

/-- The routine `encode_seq` with a counter: the result is the number of iterations of
the loop `for (; len; len -= 3)` that were entered, together with the output buffer. -/
def encode_seq_iters : List u8 → Nat → List u8 → Nat → Option (Nat × List u8)
  | i0 :: i1 :: i2 :: rest, len, output, pos =>
    if len = 0 then some (0, output) else
    (encode_seq_body (i0 :: i1 :: i2 :: rest) output pos).bind fun o =>
      (encode_seq_iters rest (usize_sub len 3) o (pos + 4)).map fun r => (r.1 + 1, r.2)
  | input, len, output, pos =>
    if len = 0 then some (0, output) else
    (encode_seq_body input output pos).bind fun _ => none

/-- The routine `encode_par` with a counter of the loop iterations entered. -/
def encode_par_iters : List u8 → Nat → List u8 → Nat → Option (Nat × List u8)
  | i0 :: i1 :: i2 :: rest, len, output, pos =>
    if len = 0 then some (0, output) else
    (encode_par_body (i0 :: i1 :: i2 :: rest) output pos).bind fun o =>
      (encode_par_iters rest (usize_sub len 3) o (pos + 4)).map fun r => (r.1 + 1, r.2)
  | input, len, output, pos =>
    if len = 0 then some (0, output) else
    (encode_par_body input output pos).bind fun _ => none

/-- The rest of a decoder call after one iteration, with the counter of iterations: a
return ends the call in this iteration, and the loop goes on with one more iteration
counted. -/
def Flow.andThenCount (f : Option Flow) (k : List u8 → Option (Nat × Int × List u8)) :
    Option (Nat × Int × List u8) :=
  match f with
  | none => none
  | some (Flow.returned r output) => some (1, r, output)
  | some (Flow.next output) => (k output).map fun r => (r.1 + 1, r.2)

/-- The routine `decode_seq` with a counter: the number of iterations of the loop
`for (; len; len -= 4)` that were entered, the returned `i32` and the output buffer. -/
def decode_seq_iters : List u8 → Nat → List u8 → Nat → Option (Nat × Int × List u8)
  | i0 :: i1 :: i2 :: i3 :: rest, len, output, pos =>
    if len = 0 then some (0, 0, output) else
    Flow.andThenCount (decode_seq_body (i0 :: i1 :: i2 :: i3 :: rest) output pos) fun o =>
      decode_seq_iters rest (usize_sub len 4) o (pos + 3)
  | input, len, output, pos =>
    if len = 0 then some (0, 0, output) else
    Flow.andThenCount (decode_seq_body input output pos) fun _ => none

/-- The routine `decode_par` with a counter of the loop iterations entered. -/
def decode_par_iters : List u8 → Nat → List u8 → Nat → Option (Nat × Int × List u8)
  | i0 :: i1 :: i2 :: i3 :: rest, len, output, pos =>
    if len = 0 then some (0, 0, output) else
    Flow.andThenCount (decode_par_body (i0 :: i1 :: i2 :: i3 :: rest) output pos) fun o =>
      decode_par_iters rest (usize_sub len 4) o (pos + 3)
  | input, len, output, pos =>
    if len = 0 then some (0, 0, output) else
    Flow.andThenCount (decode_par_body input output pos) fun _ => none

/-- The bytes of an ASCII string. -/
def bytes (s : String) : List u8 := s.toList.map (fun c => toU8 c.toNat)

/-- The four symbols that one iteration of `encode_seq` stores for the bytes `i0 i1 i2`. -/
def encode_seq_block (i0 i1 i2 : u8) : List u8 :=
  [symbolAt (i0.val >>> 2), symbolAt ((i0.val <<< 4) ||| (i1.val >>> 4)),
   symbolAt ((i1.val <<< 2) ||| (i2.val >>> 6)), symbolAt i2.val]

/-- The four symbols that one iteration of `encode_par` stores for the bytes `i0 i1 i2`. -/
def encode_par_block (i0 i1 i2 : u8) : List u8 :=
  let x := (i0.val <<< 16) ||| (i1.val <<< 8) ||| i2.val
  [symbolAt (x >>> 18), symbolAt (x >>> 12), symbolAt (x >>> 6), symbolAt x]

/-- The three bytes that one full iteration of `decode_seq` stores for the symbols
`i0 i1 i2 i3`. -/
def decode_seq_block (i0 i1 i2 i3 : u8) : List u8 :=
  [toU8 ((valueAt i0 <<< 2) ||| (valueAt i1 >>> 4)),
   toU8 ((valueAt i1 <<< 4) ||| (valueAt i2 >>> 2)),
   toU8 ((valueAt i2 <<< 6) ||| valueAt i3)]

/-- The three bytes that one full iteration of `decode_par` stores for the symbols
`i0 i1 i2 i3`. -/
def decode_par_block (i0 i1 i2 i3 : u8) : List u8 :=
  let x := (valueAt i0 <<< 18) ||| (valueAt i1 <<< 12) ||| (valueAt i2 <<< 6) ||| valueAt i3
  [toU8 (x >>> 16), toU8 (x >>> 8), toU8 x]

/-- The test of `decode_par` on one block: the conjunction of the four values and
of `0xc0` is not zero. -/
def decode_par_rejects (i0 i1 i2 i3 : u8) : Prop :=
  valueAt i0 &&& valueAt i1 &&& valueAt i2 &&& valueAt i3 &&& 0xc0 ≠ 0

instance (i0 i1 i2 i3 : u8) : Decidable (decode_par_rejects i0 i1 i2 i3) := by
  unfold decode_par_rejects; infer_instance

/-- The 64 symbols of the alphabet: the bytes of `SYM`. -/
def Alphabet : List u8 := bytes SYM

/-- Membership of a byte in the alphabet. -/
def inAlphabet (b : u8) : Prop := b ∈ Alphabet

instance (b : u8) : Decidable (inAlphabet b) := by
  unfold inAlphabet; infer_instance

/-- No block of four symbols of the input makes the test of `decode_par` return. -/
def decode_par_accepts : List u8 → Prop
  | i0 :: i1 :: i2 :: i3 :: rest => ¬ decode_par_rejects i0 i1 i2 i3 ∧ decode_par_accepts rest
  | _ => True

/-- The symbols `a b c d` are block `j` of the input `S`: its entries `4j .. 4j+3`. -/
def isBlock (S : List u8) (j : Nat) (a b c d : u8) : Prop :=
  S[4 * j]? = some a ∧ S[4 * j + 1]? = some b ∧ S[4 * j + 2]? = some c ∧ S[4 * j + 3]? = some d

/-- Blockwise image of an input under a block function of three bytes. -/
def mapBlocks3 (f : u8 → u8 → u8 → List u8) : List u8 → List u8
  | i0 :: i1 :: i2 :: rest => f i0 i1 i2 ++ mapBlocks3 f rest
  | _ => []

/-- Blockwise image of an input under a block function of four symbols. -/
def mapBlocks4 (f : u8 → u8 → u8 → u8 → List u8) : List u8 → List u8
  | i0 :: i1 :: i2 :: i3 :: rest => f i0 i1 i2 i3 ++ mapBlocks4 f rest
  | _ => []

/-! ## Stores and loop arithmetic -/

theorem store_at (pre mid suf : List u8) (x v : u8) :
    store (pre ++ mid ++ x :: suf) (pre.length + mid.length) v
      = some (pre ++ mid ++ v :: suf) := by
  have h : pre.length + mid.length = (pre ++ mid).length := by simp
  rw [h]
  simp only [store, List.length_append, List.length_cons]
  rw [if_pos (by omega)]
  congr 1
  rw [← List.length_append, List.set_append_right _ _ (le_refl _)]
  simp

theorem or_add (c b k : Nat) (hb : b < 2 ^ k) : (c <<< k) ||| b = c * 2 ^ k + b := by
  rw [Nat.shiftLeft_eq, Nat.mul_comm, ← Nat.mul_add_lt_is_or hb]

theorem usize_sub_step (n k : Nat) (h : n + k < 2 ^ 64) : usize_sub (n + k) k = n := by
  unfold usize_sub
  have : n + k + 2 ^ 64 - k = n + 2 ^ 64 := by omega
  rw [this, Nat.add_mod_right, Nat.mod_eq_of_lt (by omega)]

theorem four_stores (pre suf : List u8) (a b c d s0 s1 s2 s3 : u8) :
    store (pre ++ a :: b :: c :: d :: suf) pre.length s0
        = some (pre ++ s0 :: b :: c :: d :: suf)
    ∧ store (pre ++ s0 :: b :: c :: d :: suf) (pre.length + 1) s1
        = some (pre ++ s0 :: s1 :: c :: d :: suf)
    ∧ store (pre ++ s0 :: s1 :: c :: d :: suf) (pre.length + 2) s2
        = some (pre ++ s0 :: s1 :: s2 :: d :: suf)
    ∧ store (pre ++ s0 :: s1 :: s2 :: d :: suf) (pre.length + 3) s3
        = some (pre ++ s0 :: s1 :: s2 :: s3 :: suf) := by
  have h0 := store_at pre [] (b :: c :: d :: suf) a s0
  have h1 := store_at pre [s0] (c :: d :: suf) b s1
  have h2 := store_at pre [s0, s1] (d :: suf) c s2
  have h3 := store_at pre [s0, s1, s2] suf d s3
  simp only [List.append_nil, List.length_nil, Nat.add_zero, List.length_cons,
    List.append_assoc, List.cons_append, List.nil_append] at h0 h1 h2 h3
  exact ⟨h0, h1, h2, h3⟩

theorem encode_seq_body_eq (i0 i1 i2 : u8) (rest pre suf : List u8) (a b c d : u8) :
    encode_seq_body (i0 :: i1 :: i2 :: rest) (pre ++ a :: b :: c :: d :: suf) pre.length
      = some (pre ++ encode_seq_block i0 i1 i2 ++ suf) := by
  obtain ⟨h0, h1, h2, h3⟩ := four_stores pre suf a b c d
    (symbolAt (i0.val >>> 2)) (symbolAt ((i0.val <<< 4) ||| (i1.val >>> 4)))
    (symbolAt ((i1.val <<< 2) ||| (i2.val >>> 6))) (symbolAt i2.val)
  simp only [encode_seq_body, List.getElem?_cons_zero, List.getElem?_cons_succ,
    Option.some_bind, h0, h1, h2, h3, encode_seq_block, List.append_assoc, List.cons_append,
    List.nil_append]

theorem encode_par_body_eq (i0 i1 i2 : u8) (rest pre suf : List u8) (a b c d : u8) :
    encode_par_body (i0 :: i1 :: i2 :: rest) (pre ++ a :: b :: c :: d :: suf) pre.length
      = some (pre ++ encode_par_block i0 i1 i2 ++ suf) := by
  obtain ⟨h0, h1, h2, h3⟩ := four_stores pre suf a b c d
    (symbolAt (((i0.val <<< 16) ||| (i1.val <<< 8) ||| i2.val) >>> 18))
    (symbolAt (((i0.val <<< 16) ||| (i1.val <<< 8) ||| i2.val) >>> 12))
    (symbolAt (((i0.val <<< 16) ||| (i1.val <<< 8) ||| i2.val) >>> 6))
    (symbolAt ((i0.val <<< 16) ||| (i1.val <<< 8) ||| i2.val))
  simp only [encode_par_body, List.getElem?_cons_zero, List.getElem?_cons_succ,
    Option.some_bind, h0, h1, h2, h3, encode_par_block, List.append_assoc, List.cons_append,
    List.nil_append]

theorem exists_cons3 (l : List u8) (n : Nat) (h : l.length = 3 * (n + 1)) :
    ∃ a b c r, l = a :: b :: c :: r ∧ r.length = 3 * n := by
  match l, h with
  | a :: b :: c :: r, h => exact ⟨a, b, c, r, rfl, by simp at h; omega⟩
  | [], h => simp at h
  | [_], h => simp at h; omega
  | [_, _], h => simp at h; omega

theorem exists_cons4 (l : List u8) (n : Nat) (h : l.length = 4 * (n + 1)) :
    ∃ a b c d r, l = a :: b :: c :: d :: r ∧ r.length = 4 * n := by
  match l, h with
  | a :: b :: c :: d :: r, h => exact ⟨a, b, c, d, r, rfl, by simp at h; omega⟩
  | [], h => simp at h
  | [_], h => simp at h; omega
  | [_, _], h => simp at h; omega
  | [_, _, _], h => simp at h; omega

/-! ## The encoders on an input of `3 * n` bytes -/

theorem encode_seq_run (n : Nat) : ∀ (input pre mid suf : List u8),
    input.length = 3 * n → mid.length = 4 * n → 3 * n < 2 ^ 64 →
    encode_seq input (3 * n) (pre ++ mid ++ suf) pre.length
      = some (pre ++ mapBlocks3 encode_seq_block input ++ suf) := by
  induction n with
  | zero =>
    intro input pre mid suf hi hm _
    have hi0 : input = [] := List.length_eq_zero.mp (by simpa using hi)
    have hm0 : mid = [] := List.length_eq_zero.mp (by simpa using hm)
    subst hi0 hm0
    simp [encode_seq, mapBlocks3]
  | succ n ih =>
    intro input pre mid suf hi hm hlt
    obtain ⟨i0, i1, i2, rest, rfl, hrest⟩ := exists_cons3 input n hi
    obtain ⟨a, b, c, d, mid1, rfl, hmid⟩ := exists_cons4 mid n hm
    have hstep : usize_sub (3 * (n + 1)) 3 = 3 * n := usize_sub_step (3 * n) 3 (by omega)
    have hbody := encode_seq_body_eq i0 i1 i2 rest pre (mid1 ++ suf) a b c d
    have hpos : pre.length + 4 = (pre ++ encode_seq_block i0 i1 i2).length := by
      simp [encode_seq_block]
    rw [encode_seq, if_neg (by omega)]
    simp only [List.append_assoc, List.cons_append] at hbody ⊢
    rw [hbody, Option.some_bind, hstep, hpos]
    have := ih rest (pre ++ encode_seq_block i0 i1 i2) mid1 suf hrest hmid (by omega)
    simp only [List.append_assoc] at this
    rw [this]
    simp [mapBlocks3]

theorem encode_par_run (n : Nat) : ∀ (input pre mid suf : List u8),
    input.length = 3 * n → mid.length = 4 * n → 3 * n < 2 ^ 64 →
    encode_par input (3 * n) (pre ++ mid ++ suf) pre.length
      = some (pre ++ mapBlocks3 encode_par_block input ++ suf) := by
  induction n with
  | zero =>
    intro input pre mid suf hi hm _
    have hi0 : input = [] := List.length_eq_zero.mp (by simpa using hi)
    have hm0 : mid = [] := List.length_eq_zero.mp (by simpa using hm)
    subst hi0 hm0
    simp [encode_par, mapBlocks3]
  | succ n ih =>
    intro input pre mid suf hi hm hlt
    obtain ⟨i0, i1, i2, rest, rfl, hrest⟩ := exists_cons3 input n hi
    obtain ⟨a, b, c, d, mid1, rfl, hmid⟩ := exists_cons4 mid n hm
    have hstep : usize_sub (3 * (n + 1)) 3 = 3 * n := usize_sub_step (3 * n) 3 (by omega)
    have hbody := encode_par_body_eq i0 i1 i2 rest pre (mid1 ++ suf) a b c d
    have hpos : pre.length + 4 = (pre ++ encode_par_block i0 i1 i2).length := by
      simp [encode_par_block]
    rw [encode_par, if_neg (by omega)]
    simp only [List.append_assoc, List.cons_append] at hbody ⊢
    rw [hbody, Option.some_bind, hstep, hpos]
    have := ih rest (pre ++ encode_par_block i0 i1 i2) mid1 suf hrest hmid (by omega)
    simp only [List.append_assoc] at this
    rw [this]
    simp [mapBlocks3]

/-! ## The tables -/

set_option maxRecDepth 100000 in
theorem lookup_symbols (i : u8) : lookup symbols i = Alphabet.getD (i.val % 64) 0 := by
  revert i; decide!

set_option maxRecDepth 100000 in
theorem valueAt_lookup_symbols (i : u8) : valueAt (lookup symbols i) = i.val % 64 := by
  revert i; decide!

set_option maxRecDepth 100000 in
theorem valueAt_lt_iff (b : u8) : valueAt b < 64 ↔ inAlphabet b := by
  revert b; decide!

set_option maxRecDepth 100000 in
theorem valueAt_eq_of_not (b : u8) : ¬ inAlphabet b → valueAt b = 99 := by
  revert b; decide!

set_option maxRecDepth 100000 in
theorem symbolAt_valueAt (b : u8) : inAlphabet b → symbolAt (valueAt b) = b := by
  revert b; decide!

set_option maxRecDepth 100000 in
theorem inAlphabet_lookup_symbols (i : u8) : inAlphabet (lookup symbols i) := by
  revert i; decide!

theorem symbolAt_eq (n : Nat) : symbolAt n = Alphabet.getD (n % 64) 0 := by
  unfold symbolAt
  rw [lookup_symbols]
  have : (toU8 n).val % 64 = n % 64 := by
    show n % 256 % 64 = n % 64
    omega
  rw [this]

theorem valueAt_symbolAt (n : Nat) : valueAt (symbolAt n) = n % 64 := by
  unfold symbolAt
  rw [valueAt_lookup_symbols]
  show n % 256 % 64 = n % 64
  omega

theorem inAlphabet_symbolAt (n : Nat) : inAlphabet (symbolAt n) :=
  inAlphabet_lookup_symbols _

theorem symbolAt_congr {n m : Nat} (h : n % 64 = m % 64) : symbolAt n = symbolAt m := by
  rw [symbolAt_eq, symbolAt_eq, h]

/-! ## Words of 24 bits -/

theorem word24 (a b c : Nat) (hb : b < 256) (hc : c < 256) :
    (a <<< 16) ||| (b <<< 8) ||| c = a * 65536 + b * 256 + c := by
  have h1 : (a <<< 16) ||| (b <<< 8) = (a * 256 + b) <<< 8 := by
    rw [or_add a (b <<< 8) 16 (by rw [Nat.shiftLeft_eq]; omega), Nat.shiftLeft_eq,
      Nat.shiftLeft_eq]
    omega
  rw [h1, or_add _ c 8 (by omega)]
  omega

theorem word24_values (a b c d : Nat) (hb : b < 64) (hc : c < 64) (hd : d < 64) :
    (a <<< 18) ||| (b <<< 12) ||| (c <<< 6) ||| d
      = a * 262144 + b * 4096 + c * 64 + d := by
  have h1 : (a <<< 18) ||| (b <<< 12) = (a * 64 + b) <<< 12 := by
    rw [or_add a (b <<< 12) 18 (by rw [Nat.shiftLeft_eq]; omega), Nat.shiftLeft_eq,
      Nat.shiftLeft_eq]
    omega
  have h2 : ((a * 64 + b) <<< 12) ||| (c <<< 6) = ((a * 64 + b) * 64 + c) <<< 6 := by
    rw [or_add _ (c <<< 6) 12 (by rw [Nat.shiftLeft_eq]; omega), Nat.shiftLeft_eq,
      Nat.shiftLeft_eq]
    omega
  rw [h1, h2, or_add _ d 6 (by omega)]
  omega

theorem shl_or_shr (a b k j : Nat) (hb : b < 2 ^ (k + j)) :
    (a <<< k) ||| (b >>> j) = a * 2 ^ k + b / 2 ^ j := by
  rw [or_add a (b >>> j) k, Nat.shiftRight_eq_div_pow]
  rw [Nat.shiftRight_eq_div_pow]
  apply Nat.div_lt_of_lt_mul
  rw [← Nat.pow_add, Nat.add_comm]
  exact hb

theorem encode_block_eq (i0 i1 i2 : u8) :
    encode_par_block i0 i1 i2 = encode_seq_block i0 i1 i2 := by
  have h0 := i0.isLt
  have h1 := i1.isLt
  have h2 := i2.isLt
  have e1 := shl_or_shr i0.val i1.val 4 4 (by norm_num)
  have e2 := shl_or_shr i1.val i2.val 2 6 (by norm_num)
  simp only [encode_par_block, encode_seq_block]
  rw [word24 i0.val i1.val i2.val h1 h2, e1, e2]
  simp only [Nat.shiftRight_eq_div_pow]
  norm_num
  refine ⟨?_, ?_, ?_, ?_⟩ <;> apply symbolAt_congr <;> omega

/-! ## One iteration of a decoder -/

theorem three_stores (pre suf : List u8) (a b c s0 s1 s2 : u8) :
    store (pre ++ a :: b :: c :: suf) pre.length s0 = some (pre ++ s0 :: b :: c :: suf)
    ∧ store (pre ++ s0 :: b :: c :: suf) (pre.length + 1) s1
        = some (pre ++ s0 :: s1 :: c :: suf)
    ∧ store (pre ++ s0 :: s1 :: c :: suf) (pre.length + 2) s2
        = some (pre ++ s0 :: s1 :: s2 :: suf) := by
  have h0 := store_at pre [] (b :: c :: suf) a s0
  have h1 := store_at pre [s0] (c :: suf) b s1
  have h2 := store_at pre [s0, s1] suf c s2
  simp only [List.append_nil, List.length_nil, Nat.add_zero, List.length_cons,
    List.append_assoc, List.cons_append, List.nil_append] at h0 h1 h2
  exact ⟨h0, h1, h2⟩

theorem decode_seq_body_next (i0 i1 i2 i3 : u8) (rest pre suf : List u8) (a b c : u8)
    (v0 : valueAt i0 < 64) (v1 : valueAt i1 < 64) (v2 : valueAt i2 < 64)
    (v3 : valueAt i3 < 64) :
    decode_seq_body (i0 :: i1 :: i2 :: i3 :: rest) (pre ++ a :: b :: c :: suf) pre.length
      = some (Flow.next (pre ++ decode_seq_block i0 i1 i2 i3 ++ suf)) := by
  obtain ⟨h0, h1, h2⟩ := three_stores pre suf a b c
    (toU8 ((valueAt i0 <<< 2) ||| (valueAt i1 >>> 4)))
    (toU8 ((valueAt i1 <<< 4) ||| (valueAt i2 >>> 2)))
    (toU8 ((valueAt i2 <<< 6) ||| valueAt i3))
  simp only [decode_seq_body, List.getElem?_cons_zero, List.getElem?_cons_succ,
    Option.some_bind, h0, h1, h2, decode_seq_block, List.append_assoc, List.cons_append,
    List.nil_append, ge_iff_le, if_neg (Nat.not_le.mpr v0), if_neg (Nat.not_le.mpr v1),
    if_neg (Nat.not_le.mpr v2), if_neg (Nat.not_le.mpr v3)]

theorem decode_seq_body_fail0 (i0 : u8) (rest output : List u8) (pos : Nat)
    (v0 : 64 ≤ valueAt i0) :
    decode_seq_body (i0 :: rest) output pos = some (Flow.returned (-1) output) := by
  simp only [decode_seq_body, List.getElem?_cons_zero, Option.some_bind, ge_iff_le, if_pos v0]

theorem decode_seq_body_fail1 (i0 i1 : u8) (rest output : List u8) (pos : Nat)
    (v0 : valueAt i0 < 64) (v1 : 64 ≤ valueAt i1) :
    decode_seq_body (i0 :: i1 :: rest) output pos = some (Flow.returned (-1) output) := by
  simp only [decode_seq_body, List.getElem?_cons_zero, List.getElem?_cons_succ,
    Option.some_bind, ge_iff_le, if_neg (Nat.not_le.mpr v0), if_pos v1]

theorem decode_seq_body_fail2 (i0 i1 i2 : u8) (rest pre suf : List u8) (a : u8)
    (v0 : valueAt i0 < 64) (v1 : valueAt i1 < 64) (v2 : 64 ≤ valueAt i2) :
    decode_seq_body (i0 :: i1 :: i2 :: rest) (pre ++ a :: suf) pre.length
      = some (Flow.returned (-1)
          (pre ++ toU8 ((valueAt i0 <<< 2) ||| (valueAt i1 >>> 4)) :: suf)) := by
  have h0 := store_at pre [] suf a (toU8 ((valueAt i0 <<< 2) ||| (valueAt i1 >>> 4)))
  simp only [List.append_nil, List.length_nil, Nat.add_zero] at h0
  simp only [decode_seq_body, List.getElem?_cons_zero, List.getElem?_cons_succ,
    Option.some_bind, ge_iff_le, if_neg (Nat.not_le.mpr v0), if_neg (Nat.not_le.mpr v1),
    if_pos v2, h0]

theorem decode_seq_body_fail3 (i0 i1 i2 i3 : u8) (rest pre suf : List u8) (a b : u8)
    (v0 : valueAt i0 < 64) (v1 : valueAt i1 < 64) (v2 : valueAt i2 < 64)
    (v3 : 64 ≤ valueAt i3) :
    decode_seq_body (i0 :: i1 :: i2 :: i3 :: rest) (pre ++ a :: b :: suf) pre.length
      = some (Flow.returned (-1)
          (pre ++ toU8 ((valueAt i0 <<< 2) ||| (valueAt i1 >>> 4))
            :: toU8 ((valueAt i1 <<< 4) ||| (valueAt i2 >>> 2)) :: suf)) := by
  have h0 := store_at pre [] (b :: suf) a (toU8 ((valueAt i0 <<< 2) ||| (valueAt i1 >>> 4)))
  have h1 := store_at pre [toU8 ((valueAt i0 <<< 2) ||| (valueAt i1 >>> 4))] suf b
    (toU8 ((valueAt i1 <<< 4) ||| (valueAt i2 >>> 2)))
  simp only [List.append_nil, List.length_nil, Nat.add_zero, List.length_cons,
    List.append_assoc, List.cons_append, List.nil_append] at h0 h1
  simp only [decode_seq_body, List.getElem?_cons_zero, List.getElem?_cons_succ,
    Option.some_bind, ge_iff_le, if_neg (Nat.not_le.mpr v0), if_neg (Nat.not_le.mpr v1),
    if_neg (Nat.not_le.mpr v2), if_pos v3, h0, h1]

theorem decode_par_body_next (i0 i1 i2 i3 : u8) (rest pre suf : List u8) (a b c : u8)
    (h : ¬ decode_par_rejects i0 i1 i2 i3) :
    decode_par_body (i0 :: i1 :: i2 :: i3 :: rest) (pre ++ a :: b :: c :: suf) pre.length
      = some (Flow.next (pre ++ decode_par_block i0 i1 i2 i3 ++ suf)) := by
  obtain ⟨h0, h1, h2⟩ := three_stores pre suf a b c
    (toU8 (((valueAt i0 <<< 18) ||| (valueAt i1 <<< 12) ||| (valueAt i2 <<< 6)
      ||| valueAt i3) >>> 16))
    (toU8 (((valueAt i0 <<< 18) ||| (valueAt i1 <<< 12) ||| (valueAt i2 <<< 6)
      ||| valueAt i3) >>> 8))
    (toU8 ((valueAt i0 <<< 18) ||| (valueAt i1 <<< 12) ||| (valueAt i2 <<< 6)
      ||| valueAt i3))
  unfold decode_par_rejects at h
  simp only [decode_par_body, List.getElem?_cons_zero, List.getElem?_cons_succ,
    Option.some_bind, h0, h1, h2, decode_par_block, List.append_assoc, List.cons_append,
    List.nil_append, if_neg h]

theorem decode_par_body_fail (i0 i1 i2 i3 : u8) (rest output : List u8) (pos : Nat)
    (h : decode_par_rejects i0 i1 i2 i3) :
    decode_par_body (i0 :: i1 :: i2 :: i3 :: rest) output pos
      = some (Flow.returned (-1) output) := by
  unfold decode_par_rejects at h
  simp only [decode_par_body, List.getElem?_cons_zero, List.getElem?_cons_succ,
    Option.some_bind, if_pos h]

/-! ## The decoders on a prefix of accepted blocks -/

theorem length_mapBlocks4 (f : u8 → u8 → u8 → u8 → List u8)
    (hf : ∀ a b c d, (f a b c d).length = 3) (k : Nat) :
    ∀ P : List u8, P.length = 4 * k → (mapBlocks4 f P).length = 3 * k := by
  induction k with
  | zero =>
    intro P hP
    have : P = [] := List.length_eq_zero.mp (by simpa using hP)
    subst this
    simp [mapBlocks4]
  | succ k ih =>
    intro P hP
    obtain ⟨a, b, c, d, r, rfl, hr⟩ := exists_cons4 P k hP
    simp only [mapBlocks4, List.length_append, hf, ih r hr]
    omega

theorem length_mapBlocks3 (f : u8 → u8 → u8 → List u8)
    (hf : ∀ a b c, (f a b c).length = 4) (n : Nat) :
    ∀ B : List u8, B.length = 3 * n → (mapBlocks3 f B).length = 4 * n := by
  induction n with
  | zero =>
    intro B hB
    have : B = [] := List.length_eq_zero.mp (by simpa using hB)
    subst this
    simp [mapBlocks3]
  | succ n ih =>
    intro B hB
    obtain ⟨a, b, c, r, rfl, hr⟩ := exists_cons3 B n hB
    simp only [mapBlocks3, List.length_append, hf, ih r hr]
    omega

theorem decode_seq_prefix (k : Nat) : ∀ (P R pre mid suf : List u8) (m : Nat),
    P.length = 4 * k → (∀ b ∈ P, inAlphabet b) → mid.length = 3 * k →
    4 * k + m < 2 ^ 64 →
    decode_seq (P ++ R) (4 * k + m) (pre ++ mid ++ suf) pre.length
      = decode_seq R m ((pre ++ mapBlocks4 decode_seq_block P) ++ suf)
          (pre ++ mapBlocks4 decode_seq_block P).length := by
  induction k with
  | zero =>
    intro P R pre mid suf m hP _ hm _
    have hP0 : P = [] := List.length_eq_zero.mp (by simpa using hP)
    have hm0 : mid = [] := List.length_eq_zero.mp (by simpa using hm)
    subst hP0 hm0
    simp [mapBlocks4]
  | succ k ih =>
    intro P R pre mid suf m hP hv hm hlt
    obtain ⟨i0, i1, i2, i3, rest, rfl, hrest⟩ := exists_cons4 P k hP
    obtain ⟨a, b, c, mid1, rfl, hmid⟩ := exists_cons3 mid k hm
    have v0 := (valueAt_lt_iff i0).mpr (hv i0 (by simp))
    have v1 := (valueAt_lt_iff i1).mpr (hv i1 (by simp))
    have v2 := (valueAt_lt_iff i2).mpr (hv i2 (by simp))
    have v3 := (valueAt_lt_iff i3).mpr (hv i3 (by simp))
    have hstep : usize_sub (4 * (k + 1) + m) 4 = 4 * k + m := by
      have e : 4 * (k + 1) + m = 4 * k + m + 4 := by omega
      rw [e]
      exact usize_sub_step (4 * k + m) 4 (by omega)
    have hbody := decode_seq_body_next i0 i1 i2 i3 (rest ++ R) pre (mid1 ++ suf) a b c
      v0 v1 v2 v3
    have hpos : pre.length + 3 = (pre ++ decode_seq_block i0 i1 i2 i3).length := by
      simp [decode_seq_block]
    have hrec := ih rest R (pre ++ decode_seq_block i0 i1 i2 i3) mid1 suf m hrest
      (fun x hx => hv x (by simp [hx])) hmid (by omega)
    simp only [List.append_assoc, List.cons_append] at hbody hrec ⊢
    rw [decode_seq, if_neg (by omega), hbody]
    simp only [Flow.andThen]
    rw [hstep, hpos, hrec]
    simp [mapBlocks4]

theorem decode_par_prefix (k : Nat) : ∀ (P R pre mid suf : List u8) (m : Nat),
    P.length = 4 * k → decode_par_accepts P → mid.length = 3 * k →
    4 * k + m < 2 ^ 64 →
    decode_par (P ++ R) (4 * k + m) (pre ++ mid ++ suf) pre.length
      = decode_par R m ((pre ++ mapBlocks4 decode_par_block P) ++ suf)
          (pre ++ mapBlocks4 decode_par_block P).length := by
  induction k with
  | zero =>
    intro P R pre mid suf m hP _ hm _
    have hP0 : P = [] := List.length_eq_zero.mp (by simpa using hP)
    have hm0 : mid = [] := List.length_eq_zero.mp (by simpa using hm)
    subst hP0 hm0
    simp [mapBlocks4]
  | succ k ih =>
    intro P R pre mid suf m hP hv hm hlt
    obtain ⟨i0, i1, i2, i3, rest, rfl, hrest⟩ := exists_cons4 P k hP
    obtain ⟨a, b, c, mid1, rfl, hmid⟩ := exists_cons3 mid k hm
    have hstep : usize_sub (4 * (k + 1) + m) 4 = 4 * k + m := by
      have e : 4 * (k + 1) + m = 4 * k + m + 4 := by omega
      rw [e]
      exact usize_sub_step (4 * k + m) 4 (by omega)
    have hbody := decode_par_body_next i0 i1 i2 i3 (rest ++ R) pre (mid1 ++ suf) a b c hv.1
    have hpos : pre.length + 3 = (pre ++ decode_par_block i0 i1 i2 i3).length := by
      simp [decode_par_block]
    have hrec := ih rest R (pre ++ decode_par_block i0 i1 i2 i3) mid1 suf m hrest
      hv.2 hmid (by omega)
    simp only [List.append_assoc, List.cons_append] at hbody hrec ⊢
    rw [decode_par, if_neg (by omega), hbody]
    simp only [Flow.andThen]
    rw [hstep, hpos, hrec]
    simp [mapBlocks4]

theorem decode_seq_nil (output : List u8) (pos : Nat) :
    decode_seq [] 0 output pos = some (0, output) := by
  simp [decode_seq]

theorem decode_par_nil (output : List u8) (pos : Nat) :
    decode_par [] 0 output pos = some (0, output) := by
  simp [decode_par]

/-- A run of `decode_seq` on `4 * k` alphabet symbols: success, and the blockwise bytes. -/
theorem decode_seq_run (k : Nat) (P pre mid suf : List u8)
    (hP : P.length = 4 * k) (hv : ∀ b ∈ P, inAlphabet b) (hm : mid.length = 3 * k)
    (hlt : 4 * k < 2 ^ 64) :
    decode_seq P (4 * k) (pre ++ mid ++ suf) pre.length
      = some (0, pre ++ mapBlocks4 decode_seq_block P ++ suf) := by
  have := decode_seq_prefix k P [] pre mid suf 0 hP hv hm (by omega)
  simp only [List.append_nil, Nat.add_zero] at this
  rw [this, decode_seq_nil]

/-- A run of `decode_par` on `4 * k` symbols none of whose blocks is rejected. -/
theorem decode_par_run (k : Nat) (P pre mid suf : List u8)
    (hP : P.length = 4 * k) (hv : decode_par_accepts P) (hm : mid.length = 3 * k)
    (hlt : 4 * k < 2 ^ 64) :
    decode_par P (4 * k) (pre ++ mid ++ suf) pre.length
      = some (0, pre ++ mapBlocks4 decode_par_block P ++ suf) := by
  have := decode_par_prefix k P [] pre mid suf 0 hP hv hm (by omega)
  simp only [List.append_nil, Nat.add_zero] at this
  rw [this, decode_par_nil]

/-! ## Arithmetic of one block -/

theorem toU8_eq_iff (n : Nat) (b : u8) : toU8 n = b ↔ n % 256 = b.val := by
  constructor
  · intro h; rw [← h]; rfl
  · intro h; exact Fin.ext h

theorem toU8_congr {n m : Nat} (h : n % 256 = m % 256) : toU8 n = toU8 m := Fin.ext h

/-- The bytes of `decode_seq` for a block of four values below 64, in arithmetic form. -/
theorem decode_seq_block_arith (i0 i1 i2 i3 : u8)
    (v1 : valueAt i1 < 64) (v2 : valueAt i2 < 64) (v3 : valueAt i3 < 64) :
    decode_seq_block i0 i1 i2 i3
      = [toU8 (valueAt i0 * 4 + valueAt i1 / 16), toU8 (valueAt i1 * 16 + valueAt i2 / 4),
         toU8 (valueAt i2 * 64 + valueAt i3)] := by
  have e0 := shl_or_shr (valueAt i0) (valueAt i1) 2 4 (by norm_num; omega)
  have e1 := shl_or_shr (valueAt i1) (valueAt i2) 4 2 (by norm_num; omega)
  have e2 := or_add (valueAt i2) (valueAt i3) 6 (by norm_num; omega)
  simp only [decode_seq_block]
  rw [e0, e1, e2]
  norm_num

/-- The word of `decode_par` for a block of four values below 64, in arithmetic form. -/
theorem decode_par_block_arith (i0 i1 i2 i3 : u8)
    (v1 : valueAt i1 < 64) (v2 : valueAt i2 < 64) (v3 : valueAt i3 < 64) :
    decode_par_block i0 i1 i2 i3
      = [toU8 ((valueAt i0 * 262144 + valueAt i1 * 4096 + valueAt i2 * 64 + valueAt i3)
            / 65536),
         toU8 ((valueAt i0 * 262144 + valueAt i1 * 4096 + valueAt i2 * 64 + valueAt i3)
            / 256),
         toU8 (valueAt i0 * 262144 + valueAt i1 * 4096 + valueAt i2 * 64 + valueAt i3)] := by
  simp only [decode_par_block]
  rw [word24_values _ _ _ _ v1 v2 v3]
  simp only [Nat.shiftRight_eq_div_pow, Nat.reducePow]

theorem decode_block_eq (i0 i1 i2 i3 : u8)
    (v1 : valueAt i1 < 64) (v2 : valueAt i2 < 64) (v3 : valueAt i3 < 64) :
    decode_par_block i0 i1 i2 i3 = decode_seq_block i0 i1 i2 i3 := by
  rw [decode_par_block_arith _ _ _ _ v1 v2 v3, decode_seq_block_arith _ _ _ _ v1 v2 v3]
  simp only [List.cons.injEq, and_true]
  refine ⟨?_, ?_, ?_⟩ <;> apply toU8_congr <;> omega

theorem decode_encode_block (i0 i1 i2 : u8) :
    decode_seq_block (symbolAt (i0.val >>> 2)) (symbolAt ((i0.val <<< 4) ||| (i1.val >>> 4)))
      (symbolAt ((i1.val <<< 2) ||| (i2.val >>> 6))) (symbolAt i2.val) = [i0, i1, i2] := by
  have h0 := i0.isLt
  have h1 := i1.isLt
  have h2 := i2.isLt
  rw [decode_seq_block_arith _ _ _ _ (by rw [valueAt_symbolAt]; omega)
    (by rw [valueAt_symbolAt]; omega) (by rw [valueAt_symbolAt]; omega)]
  simp only [valueAt_symbolAt]
  rw [shl_or_shr i0.val i1.val 4 4 (by norm_num), shl_or_shr i1.val i2.val 2 6 (by norm_num)]
  simp only [Nat.shiftRight_eq_div_pow]
  norm_num
  refine ⟨?_, ?_, ?_⟩ <;> rw [toU8_eq_iff] <;> omega

theorem and_192 : ∀ x, x < 64 → x &&& 192 = 0 := by decide

theorem decode_par_rejects_iff (i0 i1 i2 i3 : u8) :
    decode_par_rejects i0 i1 i2 i3
      ↔ ¬ inAlphabet i0 ∧ ¬ inAlphabet i1 ∧ ¬ inAlphabet i2 ∧ ¬ inAlphabet i3 := by
  unfold decode_par_rejects
  constructor
  · intro h
    have l3 : valueAt i0 &&& valueAt i1 &&& valueAt i2 &&& valueAt i3 ≤ valueAt i3 :=
      Nat.and_le_right
    have l2 : valueAt i0 &&& valueAt i1 &&& valueAt i2 &&& valueAt i3 ≤ valueAt i2 :=
      Nat.le_trans Nat.and_le_left Nat.and_le_right
    have l1 : valueAt i0 &&& valueAt i1 &&& valueAt i2 &&& valueAt i3 ≤ valueAt i1 :=
      Nat.le_trans Nat.and_le_left (Nat.le_trans Nat.and_le_left Nat.and_le_right)
    have l0 : valueAt i0 &&& valueAt i1 &&& valueAt i2 &&& valueAt i3 ≤ valueAt i0 :=
      Nat.le_trans Nat.and_le_left (Nat.le_trans Nat.and_le_left Nat.and_le_left)
    refine ⟨?_, ?_, ?_, ?_⟩ <;> intro hin <;> apply h <;> apply and_192 <;>
      have hv := (valueAt_lt_iff _).mpr hin <;> omega
  · rintro ⟨h0, h1, h2, h3⟩
    rw [valueAt_eq_of_not _ h0, valueAt_eq_of_not _ h1, valueAt_eq_of_not _ h2,
      valueAt_eq_of_not _ h3]
    decide

/-! ## Blockwise images -/

theorem mapBlocks3_par_eq_seq :
    mapBlocks3 encode_par_block = mapBlocks3 encode_seq_block := by
  have : encode_par_block = encode_seq_block := by
    funext a b c; exact encode_block_eq a b c
  rw [this]

theorem inAlphabet_encode (n : Nat) : ∀ B : List u8, B.length = 3 * n →
    ∀ b ∈ mapBlocks3 encode_seq_block B, inAlphabet b := by
  induction n with
  | zero =>
    intro B hB b hb
    have : B = [] := List.length_eq_zero.mp (by simpa using hB)
    subst this
    simp [mapBlocks3] at hb
  | succ n ih =>
    intro B hB b hb
    obtain ⟨i0, i1, i2, rest, rfl, hrest⟩ := exists_cons3 B n hB
    simp only [mapBlocks3, List.mem_append, encode_seq_block, List.mem_cons,
      List.mem_singleton, List.not_mem_nil, or_false] at hb
    rcases hb with (h | h | h | h) | h
    · rw [h]; exact inAlphabet_symbolAt _
    · rw [h]; exact inAlphabet_symbolAt _
    · rw [h]; exact inAlphabet_symbolAt _
    · rw [h]; exact inAlphabet_symbolAt _
    · exact ih rest hrest b h

theorem decode_encode_blocks (n : Nat) : ∀ B : List u8, B.length = 3 * n →
    mapBlocks4 decode_seq_block (mapBlocks3 encode_seq_block B) = B := by
  induction n with
  | zero =>
    intro B hB
    have : B = [] := List.length_eq_zero.mp (by simpa using hB)
    subst this
    simp [mapBlocks3, mapBlocks4]
  | succ n ih =>
    intro B hB
    obtain ⟨i0, i1, i2, rest, rfl, hrest⟩ := exists_cons3 B n hB
    have hb := decode_encode_block i0 i1 i2
    simp only [decode_seq_block] at hb
    simp [mapBlocks3, encode_seq_block, mapBlocks4, decode_seq_block, hb, ih rest hrest]

theorem mapBlocks4_par_eq_seq (k : Nat) : ∀ S : List u8, S.length = 4 * k →
    (∀ b ∈ S, inAlphabet b) →
    mapBlocks4 decode_par_block S = mapBlocks4 decode_seq_block S := by
  induction k with
  | zero =>
    intro S hS _
    have : S = [] := List.length_eq_zero.mp (by simpa using hS)
    subst this
    simp [mapBlocks4]
  | succ k ih =>
    intro S hS hv
    obtain ⟨i0, i1, i2, i3, rest, rfl, hrest⟩ := exists_cons4 S k hS
    have v1 := (valueAt_lt_iff i1).mpr (hv i1 (by simp))
    have v2 := (valueAt_lt_iff i2).mpr (hv i2 (by simp))
    have v3 := (valueAt_lt_iff i3).mpr (hv i3 (by simp))
    simp only [mapBlocks4, decode_block_eq i0 i1 i2 i3 v1 v2 v3,
      ih rest hrest (fun x hx => hv x (by simp [hx]))]

theorem decode_par_accepts_of_valid (k : Nat) : ∀ S : List u8, S.length = 4 * k →
    (∀ b ∈ S, inAlphabet b) → decode_par_accepts S := by
  induction k with
  | zero =>
    intro S hS _
    have : S = [] := List.length_eq_zero.mp (by simpa using hS)
    subst this
    simp [decode_par_accepts]
  | succ k ih =>
    intro S hS hv
    obtain ⟨i0, i1, i2, i3, rest, rfl, hrest⟩ := exists_cons4 S k hS
    refine ⟨?_, ih rest hrest (fun x hx => hv x (by simp [hx]))⟩
    rw [decode_par_rejects_iff]
    intro h
    exact h.1 (hv i0 (by simp))

/-! ## Whole calls on buffers of the exact size -/

theorem encode_seq_exact (B O : List u8) (n : Nat) (hB : B.length = 3 * n)
    (hO : O.length = 4 * n) (hlt : 3 * n < 2 ^ 64) :
    encode_seq B B.length O 0 = some (mapBlocks3 encode_seq_block B) := by
  have := encode_seq_run n B [] O [] hB hO hlt
  simpa [hB] using this

theorem encode_par_exact (B O : List u8) (n : Nat) (hB : B.length = 3 * n)
    (hO : O.length = 4 * n) (hlt : 3 * n < 2 ^ 64) :
    encode_par B B.length O 0 = some (mapBlocks3 encode_seq_block B) := by
  have := encode_par_run n B [] O [] hB hO hlt
  rw [mapBlocks3_par_eq_seq] at this
  simpa [hB] using this

theorem decode_seq_exact (S O : List u8) (k : Nat) (hS : S.length = 4 * k)
    (hv : ∀ b ∈ S, inAlphabet b) (hO : O.length = 3 * k) (hlt : 4 * k < 2 ^ 64) :
    decode_seq S S.length O 0 = some (0, mapBlocks4 decode_seq_block S) := by
  have := decode_seq_run k S [] O [] hS hv hO hlt
  simpa [hS] using this

theorem decode_par_exact (S O : List u8) (k : Nat) (hS : S.length = 4 * k)
    (hv : ∀ b ∈ S, inAlphabet b) (hO : O.length = 3 * k) (hlt : 4 * k < 2 ^ 64) :
    decode_par S S.length O 0 = some (0, mapBlocks4 decode_seq_block S) := by
  have := decode_par_run k S [] O [] hS (decode_par_accepts_of_valid k S hS hv) hO hlt
  rw [mapBlocks4_par_eq_seq k S hS hv] at this
  simpa [hS] using this

theorem length_encode (B : List u8) (n : Nat) (hB : B.length = 3 * n) :
    (mapBlocks3 encode_seq_block B).length = 4 * n :=
  length_mapBlocks3 encode_seq_block (fun _ _ _ => rfl) n B hB

/-! ## Claims -/

/-- C1. Round trip: for a byte sequence `B` whose length is a multiple of 3 (with the
encoded length representable as a `usize`), on output buffers of the exact sizes, each of
the two encoders produces a symbol sequence on which each of the two decoders returns
success (0) with output bytes equal to `B`. -/
theorem roundtrip (B O1 O2 : List u8) (h3 : B.length % 3 = 0)
    (hlt : 4 * (B.length / 3) < 2 ^ 64)
    (hO1 : O1.length = 4 * (B.length / 3)) (hO2 : O2.length = B.length) :
    (∃ S, encode_seq B B.length O1 0 = some S ∧ decode_seq S S.length O2 0 = some (0, B))
    ∧ (∃ S, encode_seq B B.length O1 0 = some S ∧ decode_par S S.length O2 0 = some (0, B))
    ∧ (∃ S, encode_par B B.length O1 0 = some S ∧ decode_seq S S.length O2 0 = some (0, B))
    ∧ (∃ S, encode_par B B.length O1 0 = some S
        ∧ decode_par S S.length O2 0 = some (0, B)) := by
  have hB : B.length = 3 * (B.length / 3) := by omega
  have hS := length_encode B _ hB
  have hv := inAlphabet_encode _ B hB
  have es := encode_seq_exact B O1 _ hB hO1 (by omega)
  have ep := encode_par_exact B O1 _ hB hO1 (by omega)
  have ds := decode_seq_exact _ O2 _ hS hv (by omega) hlt
  have dp := decode_par_exact _ O2 _ hS hv (by omega) hlt
  rw [decode_encode_blocks _ B hB] at ds dp
  exact ⟨⟨_, es, ds⟩, ⟨_, es, dp⟩, ⟨_, ep, ds⟩, ⟨_, ep, dp⟩⟩

theorem roundtrip_witness :
    (∃ S, encode_seq [77, 97, 110] 3 [0, 0, 0, 0] 0 = some S
        ∧ decode_seq S S.length [0, 0, 0] 0 = some (0, [77, 97, 110]))
    ∧ (∃ S, encode_seq [77, 97, 110] 3 [0, 0, 0, 0] 0 = some S
        ∧ decode_par S S.length [0, 0, 0] 0 = some (0, [77, 97, 110]))
    ∧ (∃ S, encode_par [77, 97, 110] 3 [0, 0, 0, 0] 0 = some S
        ∧ decode_seq S S.length [0, 0, 0] 0 = some (0, [77, 97, 110]))
    ∧ (∃ S, encode_par [77, 97, 110] 3 [0, 0, 0, 0] 0 = some S
        ∧ decode_par S S.length [0, 0, 0] 0 = some (0, [77, 97, 110])) :=
  roundtrip [77, 97, 110] [0, 0, 0, 0] [0, 0, 0] (by decide) (by decide) (by decide)
    (by decide)

/-- C2. Encoder equivalence: for a byte sequence `B` whose length is a multiple of 3 and
an output buffer of the exact size, `encode_seq` and `encode_par` both return, and with the
same output symbols, `4 * (length / 3)` of them. -/
theorem encode_seq_eq_encode_par (B O : List u8) (h3 : B.length % 3 = 0)
    (hlt : B.length < 2 ^ 64) (hO : O.length = 4 * (B.length / 3)) :
    ∃ S, S.length = 4 * (B.length / 3)
      ∧ encode_seq B B.length O 0 = some S ∧ encode_par B B.length O 0 = some S := by
  have hB : B.length = 3 * (B.length / 3) := by omega
  exact ⟨_, length_encode B _ hB, encode_seq_exact B O _ hB hO (by omega),
    encode_par_exact B O _ hB hO (by omega)⟩

theorem encode_seq_eq_encode_par_witness :
    ∃ S, S.length = 4 * (([1, 2, 3, 253, 254, 255] : List u8).length / 3)
      ∧ encode_seq [1, 2, 3, 253, 254, 255] 6 [0, 0, 0, 0, 0, 0, 0, 0] 0 = some S
      ∧ encode_par [1, 2, 3, 253, 254, 255] 6 [0, 0, 0, 0, 0, 0, 0, 0] 0 = some S :=
  encode_seq_eq_encode_par [1, 2, 3, 253, 254, 255] [0, 0, 0, 0, 0, 0, 0, 0] (by decide)
    (by decide) (by decide)

/-- C3. Decoder equivalence on valid input: for a symbol sequence `S` whose length is a
multiple of 4 and whose bytes all belong to the alphabet, on an output buffer of the exact
size, `decode_seq` and `decode_par` both return success (0) with identical output bytes. -/
theorem decode_seq_eq_decode_par (S O : List u8) (h4 : S.length % 4 = 0)
    (hlt : S.length < 2 ^ 64) (hv : ∀ b ∈ S, inAlphabet b)
    (hO : O.length = 3 * (S.length / 4)) :
    ∃ out, out.length = 3 * (S.length / 4)
      ∧ decode_seq S S.length O 0 = some (0, out)
      ∧ decode_par S S.length O 0 = some (0, out) := by
  have hS : S.length = 4 * (S.length / 4) := by omega
  exact ⟨_, length_mapBlocks4 decode_seq_block (fun _ _ _ _ => rfl) _ S hS,
    decode_seq_exact S O _ hS hv hO (by omega), decode_par_exact S O _ hS hv hO (by omega)⟩

theorem decode_seq_eq_decode_par_witness :
    ∃ out, out.length = 3 * (([84, 87, 70, 117, 43, 47, 48, 57] : List u8).length / 4)
      ∧ decode_seq [84, 87, 70, 117, 43, 47, 48, 57]
          ([84, 87, 70, 117, 43, 47, 48, 57] : List u8).length [0, 0, 0, 0, 0, 0] 0
          = some (0, out)
      ∧ decode_par [84, 87, 70, 117, 43, 47, 48, 57]
          ([84, 87, 70, 117, 43, 47, 48, 57] : List u8).length [0, 0, 0, 0, 0, 0] 0
          = some (0, out) :=
  decode_seq_eq_decode_par [84, 87, 70, 117, 43, 47, 48, 57] [0, 0, 0, 0, 0, 0] (by decide)
    (by decide) (by decide!) (by decide)

/-- C4 (evidence). On the four symbols `T!Fu`, whose second symbol `!` is outside the
alphabet, `decode_seq` returns failure (-1) but `decode_par` returns success (0) and
stores the three bytes `0x4E 0x31 0x6E`: its test is a conjunction of the four values, which
is zero as soon as one symbol of the block is valid. -/
theorem decode_par_T_bang_F_u :
    ¬ inAlphabet 0x21
    ∧ decode_seq [0x54, 0x21, 0x46, 0x75] 4 [0, 0, 0] 0 = some (-1, [0, 0, 0])
    ∧ decode_par [0x54, 0x21, 0x46, 0x75] 4 [0, 0, 0] 0 = some (0, [0x4E, 0x31, 0x6E]) := by
  refine ⟨by decide!, by decide, by decide⟩

theorem getElem?_mapBlocks3 (f : u8 → u8 → u8 → List u8)
    (hf : ∀ a b c, (f a b c).length = 4) (k : Nat) :
    ∀ (B : List u8) (b0 b1 b2 : u8),
      B[3 * k]? = some b0 → B[3 * k + 1]? = some b1 → B[3 * k + 2]? = some b2 →
      ∀ j, j < 4 → (mapBlocks3 f B)[4 * k + j]? = (f b0 b1 b2)[j]? := by
  induction k with
  | zero =>
    intro B b0 b1 b2 h0 h1 h2 j hj
    match B, h0, h1, h2 with
    | a :: b :: c :: rest, h0, h1, h2 =>
      simp only [Nat.mul_zero, Nat.zero_add, List.getElem?_cons_zero, List.getElem?_cons_succ,
        Option.some.injEq] at h0 h1 h2
      subst h0 h1 h2
      simp only [mapBlocks3, Nat.mul_zero, Nat.zero_add]
      exact List.getElem?_append_left (by rw [hf]; exact hj)
    | [], h0, _, _ => simp at h0
    | [_], _, h1, _ => simp at h1
    | [_, _], _, _, h2 => simp at h2
  | succ k ih =>
    intro B b0 b1 b2 h0 h1 h2 j hj
    match B, h0, h1, h2 with
    | a :: b :: c :: rest, h0, h1, h2 =>
      have e0 : 3 * (k + 1) = 3 * k + 1 + 1 + 1 := by omega
      have e1 : 3 * (k + 1) + 1 = 3 * k + 1 + 1 + 1 + 1 := by omega
      have e2 : 3 * (k + 1) + 2 = 3 * k + 2 + 1 + 1 + 1 := by omega
      rw [e0] at h0
      rw [e1] at h1
      rw [e2] at h2
      simp only [List.getElem?_cons_succ] at h0 h1 h2
      have := ih rest b0 b1 b2 h0 h1 h2 j hj
      rw [← this]
      simp only [mapBlocks3]
      rw [List.getElem?_append_right (by rw [hf]; omega), hf]
      congr 1
      omega
    | [], h0, _, _ => simp at h0
    | [_], h0, _, _ =>
      obtain ⟨hl, _⟩ := List.getElem?_eq_some_iff.mp h0
      simp at hl
    | [_, _], h0, _, _ =>
      obtain ⟨hl, _⟩ := List.getElem?_eq_some_iff.mp h0
      simp at hl
      omega

theorem encode_seq_block_standard (b0 b1 b2 : u8) :
    encode_seq_block b0 b1 b2
      = [Alphabet.getD ((b0.val * 65536 + b1.val * 256 + b2.val) >>> 18) 0,
         Alphabet.getD (((b0.val * 65536 + b1.val * 256 + b2.val) >>> 12) &&& 63) 0,
         Alphabet.getD (((b0.val * 65536 + b1.val * 256 + b2.val) >>> 6) &&& 63) 0,
         Alphabet.getD ((b0.val * 65536 + b1.val * 256 + b2.val) &&& 63) 0] := by
  have h0 := b0.isLt
  have h1 := b1.isLt
  have h2 := b2.isLt
  have m : ∀ x : Nat, x &&& 63 = x % 64 := fun x => Nat.and_pow_two_sub_one_eq_mod x 6
  simp only [encode_seq_block, symbolAt_eq, m]
  rw [shl_or_shr b0.val b1.val 4 4 (by norm_num), shl_or_shr b1.val b2.val 2 6 (by norm_num)]
  simp only [Nat.shiftRight_eq_div_pow, Nat.reducePow]
  have a0 : b0.val / 4 % 64 = (b0.val * 65536 + b1.val * 256 + b2.val) / 262144 := by omega
  have a1 : (b0.val * 16 + b1.val / 16) % 64
      = (b0.val * 65536 + b1.val * 256 + b2.val) / 4096 % 64 := by omega
  have a2 : (b1.val * 4 + b2.val / 64) % 64
      = (b0.val * 65536 + b1.val * 256 + b2.val) / 64 % 64 := by omega
  have a3 : b2.val % 64 = (b0.val * 65536 + b1.val * 256 + b2.val) % 64 := by omega
  rw [a0, a1, a2, a3]

/-- C5. The encoders compute standard unpadded base64: on an input of `3 * n` bytes and an
output buffer of `4 * n` bytes both encoders return the same symbols `S`, and for every
block `k` with bytes `b0 b1 b2`, where `w = b0 * 65536 + b1 * 256 + b2`, the symbols
`4k .. 4k+3` of `S` are `Alphabet[w >> 18]`, `Alphabet[(w >> 12) & 63]`,
`Alphabet[(w >> 6) & 63]` and `Alphabet[w & 63]`. -/
theorem encode_standard (B O : List u8) (n : Nat) (hB : B.length = 3 * n)
    (hO : O.length = 4 * n) (hlt : 3 * n < 2 ^ 64) :
    ∃ S, encode_seq B B.length O 0 = some S ∧ encode_par B B.length O 0 = some S
      ∧ ∀ (k : Nat) (b0 b1 b2 : u8),
          B[3 * k]? = some b0 → B[3 * k + 1]? = some b1 → B[3 * k + 2]? = some b2 →
          S[4 * k]? = some (Alphabet.getD
              ((b0.val * 65536 + b1.val * 256 + b2.val) >>> 18) 0)
          ∧ S[4 * k + 1]? = some (Alphabet.getD
              (((b0.val * 65536 + b1.val * 256 + b2.val) >>> 12) &&& 63) 0)
          ∧ S[4 * k + 2]? = some (Alphabet.getD
              (((b0.val * 65536 + b1.val * 256 + b2.val) >>> 6) &&& 63) 0)
          ∧ S[4 * k + 3]? = some (Alphabet.getD
              ((b0.val * 65536 + b1.val * 256 + b2.val) &&& 63) 0) := by
  refine ⟨_, encode_seq_exact B O n hB hO hlt, encode_par_exact B O n hB hO hlt, ?_⟩
  intro k b0 b1 b2 h0 h1 h2
  have key := getElem?_mapBlocks3 encode_seq_block (fun _ _ _ => rfl) k B b0 b1 b2 h0 h1 h2
  rw [encode_seq_block_standard] at key
  have k0 := key 0 (by omega)
  have k1 := key 1 (by omega)
  have k2 := key 2 (by omega)
  have k3 := key 3 (by omega)
  simp only [Nat.add_zero, List.getElem?_cons_zero, List.getElem?_cons_succ] at k0 k1 k2 k3
  exact ⟨k0, k1, k2, k3⟩

theorem encode_standard_witness :
    ∃ S, encode_seq [77, 97, 110] ([77, 97, 110] : List u8).length [0, 0, 0, 0] 0 = some S
      ∧ encode_par [77, 97, 110] ([77, 97, 110] : List u8).length [0, 0, 0, 0] 0 = some S
      ∧ ∀ (k : Nat) (b0 b1 b2 : u8),
          ([77, 97, 110] : List u8)[3 * k]? = some b0 →
          ([77, 97, 110] : List u8)[3 * k + 1]? = some b1 →
          ([77, 97, 110] : List u8)[3 * k + 2]? = some b2 →
          S[4 * k]? = some (Alphabet.getD
              ((b0.val * 65536 + b1.val * 256 + b2.val) >>> 18) 0)
          ∧ S[4 * k + 1]? = some (Alphabet.getD
              (((b0.val * 65536 + b1.val * 256 + b2.val) >>> 12) &&& 63) 0)
          ∧ S[4 * k + 2]? = some (Alphabet.getD
              (((b0.val * 65536 + b1.val * 256 + b2.val) >>> 6) &&& 63) 0)
          ∧ S[4 * k + 3]? = some (Alphabet.getD
              ((b0.val * 65536 + b1.val * 256 + b2.val) &&& 63) 0) :=
  encode_standard [77, 97, 110] [0, 0, 0, 0] 1 (by decide) (by decide) (by decide)

/-- C6. Test vector: on the three bytes `0x4D 0x61 0x6E` ("Man") both encoders output the
four symbols "TWFu", and on the four symbols "TWFu" both decoders return success (0) and
output the bytes `0x4D 0x61 0x6E`. -/
theorem test_vector_Man :
    bytes "Man" = [0x4D, 0x61, 0x6E]
    ∧ encode_seq [0x4D, 0x61, 0x6E] 3 [0, 0, 0, 0] 0 = some (bytes "TWFu")
    ∧ encode_par [0x4D, 0x61, 0x6E] 3 [0, 0, 0, 0] 0 = some (bytes "TWFu")
    ∧ decode_seq (bytes "TWFu") 4 [0, 0, 0] 0 = some (0, [0x4D, 0x61, 0x6E])
    ∧ decode_par (bytes "TWFu") 4 [0, 0, 0] 0 = some (0, [0x4D, 0x61, 0x6E]) := by
  refine ⟨by decide, by decide, by decide, by decide, by decide⟩

/-! ## Failure of the packed decoder -/

theorem decode_par_split (n : Nat) : ∀ S : List u8, S.length = 4 * n →
    decode_par_accepts S ∨
    ∃ (k : Nat) (P : List u8) (i0 i1 i2 i3 : u8) (R : List u8),
      S = P ++ i0 :: i1 :: i2 :: i3 :: R ∧ P.length = 4 * k ∧ k < n
        ∧ decode_par_accepts P ∧ decode_par_rejects i0 i1 i2 i3 := by
  induction n with
  | zero =>
    intro S hS
    have : S = [] := List.length_eq_zero.mp (by simpa using hS)
    subst this
    left
    simp [decode_par_accepts]
  | succ n ih =>
    intro S hS
    obtain ⟨a, b, c, d, rest, rfl, hrest⟩ := exists_cons4 S n hS
    by_cases hr : decode_par_rejects a b c d
    · right
      exact ⟨0, [], a, b, c, d, rest, rfl, rfl, by omega, by simp [decode_par_accepts], hr⟩
    · rcases ih rest hrest with h | ⟨k, P, i0, i1, i2, i3, R, rfl, hP, hk, hacc, hrej⟩
      · left
        exact ⟨hr, h⟩
      · right
        refine ⟨k + 1, a :: b :: c :: d :: P, i0, i1, i2, i3, R, rfl, ?_, by omega,
          ⟨hr, hacc⟩, hrej⟩
        simp only [List.length_cons, hP]
        omega

theorem decode_par_fail_at (k n : Nat) (P R O : List u8) (i0 i1 i2 i3 : u8)
    (hP : P.length = 4 * k) (hacc : decode_par_accepts P)
    (hrej : decode_par_rejects i0 i1 i2 i3)
    (hS : (P ++ i0 :: i1 :: i2 :: i3 :: R).length = 4 * n) (hlt : 4 * n < 2 ^ 64)
    (hO : O.length = 3 * n) :
    decode_par (P ++ i0 :: i1 :: i2 :: i3 :: R) (4 * n) O 0
      = some (-1, mapBlocks4 decode_par_block P ++ O.drop (3 * k)) := by
  have hR : 4 * n = 4 * k + (4 + R.length) := by
    simp only [List.length_append, List.length_cons, hP] at hS
    omega
  have hsplit : O = [] ++ O.take (3 * k) ++ O.drop (3 * k) := by simp
  have hpre := decode_par_prefix k P (i0 :: i1 :: i2 :: i3 :: R) [] (O.take (3 * k))
    (O.drop (3 * k)) (4 + R.length) hP hacc (by rw [List.length_take, hO]; omega) (by omega)
  rw [← hsplit, ← hR] at hpre
  simp only [List.length_nil] at hpre
  rw [hpre, decode_par, if_neg (by omega), decode_par_body_fail _ _ _ _ _ _ _ hrej]
  simp [Flow.andThen]

/-- C7. Failure atomicity of the packed decoder: on an input of `4 * n` symbols and an
output buffer `O` of `3 * n` bytes, if `decode_par` returns failure (-1) with final buffer
`out`, then the input splits as `P`, a block `i0 i1 i2 i3`, and a rest, where `P` is `k`
blocks that `decode_par` decodes with success, the block is the one its test rejects, the
first `3 * k` bytes of `out` are the bytes decoded from `P`, and every position from
`3 * k` on still holds its value from `O`. -/
theorem decode_par_failure_atomic (S O out : List u8) (n : Nat) (hS : S.length = 4 * n)
    (hO : O.length = 3 * n) (hlt : 4 * n < 2 ^ 64)
    (hfail : decode_par S S.length O 0 = some (-1, out)) :
    ∃ (k : Nat) (P : List u8) (i0 i1 i2 i3 : u8) (R : List u8),
      S = P ++ i0 :: i1 :: i2 :: i3 :: R ∧ P.length = 4 * k ∧ k < n
        ∧ decode_par_rejects i0 i1 i2 i3
        ∧ decode_par P P.length (O.take (3 * k)) 0 = some (0, out.take (3 * k))
        ∧ out.drop (3 * k) = O.drop (3 * k)
        ∧ out.length = O.length := by
  rcases decode_par_split n S hS with hacc | ⟨k, P, i0, i1, i2, i3, R, rfl, hP, hk, hacc, hrej⟩
  · have := decode_par_run n S [] O [] hS hacc hO hlt
    simp only [List.nil_append, List.append_nil, List.length_nil] at this
    rw [hS, this] at hfail
    simp at hfail
  · have hrun := decode_par_fail_at k n P R O i0 i1 i2 i3 hP hacc hrej hS hlt hO
    rw [hS, hrun] at hfail
    simp only [Option.some.injEq, Prod.mk.injEq, true_and] at hfail
    have hD : (mapBlocks4 decode_par_block P).length = 3 * k :=
      length_mapBlocks4 decode_par_block (fun _ _ _ _ => rfl) k P hP
    have hpre := decode_par_run k P [] (O.take (3 * k)) [] hP hacc
      (by rw [List.length_take, hO]; omega) (by omega)
    simp only [List.nil_append, List.append_nil, List.length_nil] at hpre
    refine ⟨k, P, i0, i1, i2, i3, R, rfl, hP, hk, hrej, ?_, ?_, ?_⟩
    · rw [hP, hpre, ← hfail, List.take_left' hD]
    · rw [← hfail, List.drop_left' hD]
    · rw [← hfail, List.length_append, hD, List.length_drop, hO]
      omega

theorem decode_par_failure_atomic_witness :
    ∃ (k : Nat) (P : List u8) (i0 i1 i2 i3 : u8) (R : List u8),
      ([84, 87, 70, 117, 33, 33, 33, 33] : List u8) = P ++ i0 :: i1 :: i2 :: i3 :: R
        ∧ P.length = 4 * k ∧ k < 2
        ∧ decode_par_rejects i0 i1 i2 i3
        ∧ decode_par P P.length (([7, 7, 7, 7, 7, 7] : List u8).take (3 * k)) 0
            = some (0, ([77, 97, 110, 7, 7, 7] : List u8).take (3 * k))
        ∧ ([77, 97, 110, 7, 7, 7] : List u8).drop (3 * k)
            = ([7, 7, 7, 7, 7, 7] : List u8).drop (3 * k)
        ∧ ([77, 97, 110, 7, 7, 7] : List u8).length = ([7, 7, 7, 7, 7, 7] : List u8).length :=
  decode_par_failure_atomic [84, 87, 70, 117, 33, 33, 33, 33] [7, 7, 7, 7, 7, 7]
    [77, 97, 110, 7, 7, 7] 2 (by decide) (by decide) (by decide) (by decide)

/-! ## Failure of the sequential decoder -/

/-- The bytes of the failing block that `decode_seq` has stored when the first symbol
outside the alphabet is at position `j` of the block: none for `j = 0, 1`, output byte 0
for `j = 2`, output bytes 0 and 1 for `j = 3`. -/
theorem decode_seq_fail_at (k n j : Nat) (P R O : List u8) (s0 s1 s2 s3 : u8)
    (hP : P.length = 4 * k) (hPv : ∀ b ∈ P, inAlphabet b)
    (hS : (P ++ s0 :: s1 :: s2 :: s3 :: R).length = 4 * n) (hlt : 4 * n < 2 ^ 64)
    (hO : O.length = 3 * n) (hj : j < 4)
    (hjv : ∀ i, i < j → inAlphabet ([s0, s1, s2, s3].getD i 0))
    (hjn : ¬ inAlphabet ([s0, s1, s2, s3].getD j 0)) :
    decode_seq (P ++ s0 :: s1 :: s2 :: s3 :: R) (4 * n) O 0
      = some (-1, mapBlocks4 decode_seq_block P
          ++ [toU8 (valueAt s0 * 4 + valueAt s1 / 16),
              toU8 (valueAt s1 * 16 + valueAt s2 / 4)].take (j - 1)
          ++ O.drop (3 * k + (j - 1))) := by
  have hR : 4 * n = 4 * k + (4 + R.length) := by
    simp only [List.length_append, List.length_cons, hP] at hS
    omega
  have hsplit : O = [] ++ O.take (3 * k) ++ O.drop (3 * k) := by simp
  have hpre := decode_seq_prefix k P (s0 :: s1 :: s2 :: s3 :: R) [] (O.take (3 * k))
    (O.drop (3 * k)) (4 + R.length) hP hPv (by rw [List.length_take, hO]; omega) (by omega)
  rw [← hsplit, ← hR] at hpre
  simp only [List.nil_append, List.length_nil] at hpre
  have hdl : (O.drop (3 * k)).length = 3 * (n - k - 1) + 1 + 1 + 1 := by
    rw [List.length_drop, hO]; omega
  obtain ⟨a, b, c, suf, hsuf⟩ :
      ∃ a b c suf, O.drop (3 * k) = a :: b :: c :: suf := by
    match hd : O.drop (3 * k), hdl with
    | a :: b :: c :: suf, _ => exact ⟨a, b, c, suf, rfl⟩
    | [], h => simp at h
    | [_], h => simp at h
    | [_, _], h => simp at h
  have hd1 : O.drop (3 * k + 1) = b :: c :: suf := by
    rw [← List.drop_drop, hsuf]; rfl
  have hd2 : O.drop (3 * k + 2) = c :: suf := by
    rw [← List.drop_drop, hsuf]; rfl
  have nv : ∀ x : u8, ¬ inAlphabet x → 64 ≤ valueAt x := fun x hx => by
    rw [valueAt_eq_of_not x hx]; omega
  rw [hpre, hsuf, decode_seq, if_neg (by omega)]
  match j, hj, hjv, hjn with
  | 0, _, _, hjn =>
    rw [decode_seq_body_fail0 _ _ _ _ (nv s0 hjn)]
    simp [Flow.andThen, hsuf]
  | 1, _, hjv, hjn =>
    have v0 := (valueAt_lt_iff s0).mpr (hjv 0 (by omega))
    rw [decode_seq_body_fail1 _ _ _ _ _ v0 (nv s1 hjn)]
    simp [Flow.andThen, hsuf]
  | 2, _, hjv, hjn =>
    have v0 := (valueAt_lt_iff s0).mpr (hjv 0 (by omega))
    have v1 := (valueAt_lt_iff s1).mpr (hjv 1 (by omega))
    rw [decode_seq_body_fail2 _ _ _ _ _ _ _ v0 v1 (nv s2 hjn),
      shl_or_shr (valueAt s0) (valueAt s1) 2 4 (by norm_num; omega)]
    simp [Flow.andThen, hd1]
  | 3, _, hjv, hjn =>
    have v0 := (valueAt_lt_iff s0).mpr (hjv 0 (by omega))
    have v1 := (valueAt_lt_iff s1).mpr (hjv 1 (by omega))
    have v2 := (valueAt_lt_iff s2).mpr (hjv 2 (by omega))
    rw [decode_seq_body_fail3 _ _ _ _ _ _ _ _ _ v0 v1 v2 (nv s3 hjn),
      shl_or_shr (valueAt s0) (valueAt s1) 2 4 (by norm_num; omega),
      shl_or_shr (valueAt s1) (valueAt s2) 4 2 (by norm_num; omega)]
    simp [Flow.andThen, hd2]

/-- C8. Partial write of the sequential decoder: let block `k` (symbols `s0 s1 s2 s3`,
after the `4 * k` alphabet symbols `P`) be the first block with a symbol outside the
alphabet, and `j` the position in it of the first such symbol. Then `decode_seq` returns
failure (-1); output positions `0 .. 3k-1` hold the bytes `D` that `decode_seq` decodes
from `P`; of block `k` the first `j - 1` bytes are stored (none for `j = 0, 1`, byte 0 for
`j = 2`, bytes 0 and 1 for `j = 3`) with the values `v0 * 4 + v1 / 16` and
`v1 * 16 + v2 / 4` (mod 256); every later position still holds its value from `O`. -/
theorem decode_seq_partial_write (k n j : Nat) (P R O : List u8) (s0 s1 s2 s3 : u8)
    (hP : P.length = 4 * k) (hPv : ∀ b ∈ P, inAlphabet b)
    (hS : (P ++ s0 :: s1 :: s2 :: s3 :: R).length = 4 * n) (hlt : 4 * n < 2 ^ 64)
    (hO : O.length = 3 * n) (hj : j < 4)
    (hjv : ∀ i, i < j → inAlphabet ([s0, s1, s2, s3].getD i 0))
    (hjn : ¬ inAlphabet ([s0, s1, s2, s3].getD j 0)) :
    ∃ D, decode_seq P P.length (O.take (3 * k)) 0 = some (0, D) ∧ D.length = 3 * k
      ∧ decode_seq (P ++ s0 :: s1 :: s2 :: s3 :: R) (P ++ s0 :: s1 :: s2 :: s3 :: R).length O 0
        = some (-1, D
            ++ [toU8 (valueAt s0 * 4 + valueAt s1 / 16),
                toU8 (valueAt s1 * 16 + valueAt s2 / 4)].take (j - 1)
            ++ O.drop (3 * k + (j - 1))) := by
  have hk : k < n := by
    simp only [List.length_append, List.length_cons, hP] at hS
    omega
  have hpre := decode_seq_run k P [] (O.take (3 * k)) [] hP hPv
    (by rw [List.length_take, hO]; omega) (by omega)
  simp only [List.nil_append, List.append_nil, List.length_nil] at hpre
  refine ⟨mapBlocks4 decode_seq_block P, ?_,
    length_mapBlocks4 decode_seq_block (fun _ _ _ _ => rfl) k P hP, ?_⟩
  · rw [hP, hpre]
  · rw [hS]
    exact decode_seq_fail_at k n j P R O s0 s1 s2 s3 hP hPv hS hlt hO hj hjv hjn

theorem decode_seq_partial_write_witness :
    ∃ D, decode_seq [84, 87, 70, 117] ([84, 87, 70, 117] : List u8).length
        (([7, 7, 7, 7, 7, 7] : List u8).take (3 * 1)) 0 = some (0, D) ∧ D.length = 3 * 1
      ∧ decode_seq ([84, 87, 70, 117] ++ 84 :: 87 :: 70 :: 33 :: [])
          (([84, 87, 70, 117] : List u8) ++ 84 :: 87 :: 70 :: 33 :: []).length
          [7, 7, 7, 7, 7, 7] 0
        = some (-1, D
            ++ [toU8 (valueAt 84 * 4 + valueAt 87 / 16),
                toU8 (valueAt 87 * 16 + valueAt 70 / 4)].take (3 - 1)
            ++ ([7, 7, 7, 7, 7, 7] : List u8).drop (3 * 1 + (3 - 1))) :=
  decode_seq_partial_write 1 2 3 [84, 87, 70, 117] [] [7, 7, 7, 7, 7, 7] 84 87 70 33
    (by decide) (by decide!) (by decide) (by decide) (by decide) (by decide) (by decide!)
    (by decide!)

/-! ## Exact failure condition of the sequential decoder -/

theorem block_first_invalid (s0 s1 s2 s3 : u8) :
    (inAlphabet s0 ∧ inAlphabet s1 ∧ inAlphabet s2 ∧ inAlphabet s3)
    ∨ ∃ j, j < 4 ∧ (∀ i, i < j → inAlphabet ([s0, s1, s2, s3].getD i 0))
        ∧ ¬ inAlphabet ([s0, s1, s2, s3].getD j 0) := by
  by_cases h0 : inAlphabet s0
  · by_cases h1 : inAlphabet s1
    · by_cases h2 : inAlphabet s2
      · by_cases h3 : inAlphabet s3
        · exact Or.inl ⟨h0, h1, h2, h3⟩
        · refine Or.inr ⟨3, by omega, ?_, h3⟩
          intro i hi
          interval_cases i
          · exact h0
          · exact h1
          · exact h2
      · refine Or.inr ⟨2, by omega, ?_, h2⟩
        intro i hi
        interval_cases i
        · exact h0
        · exact h1
    · refine Or.inr ⟨1, by omega, ?_, h1⟩
      intro i hi
      interval_cases i
      exact h0
  · exact Or.inr ⟨0, by omega, fun i hi => absurd hi (Nat.not_lt_zero i), h0⟩

theorem decode_seq_split (n : Nat) : ∀ S : List u8, S.length = 4 * n →
    (∀ b ∈ S, inAlphabet b) ∨
    ∃ (k : Nat) (P : List u8) (s0 s1 s2 s3 : u8) (R : List u8) (j : Nat),
      S = P ++ s0 :: s1 :: s2 :: s3 :: R ∧ P.length = 4 * k ∧ (∀ b ∈ P, inAlphabet b)
        ∧ j < 4 ∧ (∀ i, i < j → inAlphabet ([s0, s1, s2, s3].getD i 0))
        ∧ ¬ inAlphabet ([s0, s1, s2, s3].getD j 0) := by
  induction n with
  | zero =>
    intro S hS
    have : S = [] := List.length_eq_zero.mp (by simpa using hS)
    subst this
    left
    simp
  | succ n ih =>
    intro S hS
    obtain ⟨a, b, c, d, rest, rfl, hrest⟩ := exists_cons4 S n hS
    rcases block_first_invalid a b c d with ⟨ha, hb, hc, hd⟩ | ⟨j, hj, hjv, hjn⟩
    · rcases ih rest hrest with h | ⟨k, P, s0, s1, s2, s3, R, j, rfl, hP, hPv, hj, hjv, hjn⟩
      · left
        intro x hx
        simp only [List.mem_cons] at hx
        rcases hx with rfl | rfl | rfl | rfl | hx
        · exact ha
        · exact hb
        · exact hc
        · exact hd
        · exact h x hx
      · right
        refine ⟨k + 1, a :: b :: c :: d :: P, s0, s1, s2, s3, R, j, rfl, ?_, ?_, hj, hjv, hjn⟩
        · simp only [List.length_cons, hP]; omega
        · intro x hx
          simp only [List.mem_cons] at hx
          rcases hx with rfl | rfl | rfl | rfl | hx
          · exact ha
          · exact hb
          · exact hc
          · exact hd
          · exact hPv x hx
    · right
      exact ⟨0, [], a, b, c, d, rest, j, rfl, rfl, by simp, hj, hjv, hjn⟩

/-- C9. The sequential decoder fails exactly on invalid symbols: on a symbol sequence `S`
whose length is a multiple of 4 and an output buffer of the exact size, `decode_seq`
returns a value `r` that is -1 if and only if some byte of `S` is outside the alphabet, 0
if and only if every byte of `S` is in the alphabet, and never anything else. -/
theorem decode_seq_fails_iff (S O : List u8) (h4 : S.length % 4 = 0)
    (hlt : S.length < 2 ^ 64) (hO : O.length = 3 * (S.length / 4)) :
    ∃ (r : Int) (out : List u8), decode_seq S S.length O 0 = some (r, out)
      ∧ (r = -1 ↔ ∃ b ∈ S, ¬ inAlphabet b)
      ∧ (r = 0 ↔ ∀ b ∈ S, inAlphabet b)
      ∧ (r = 0 ∨ r = -1) := by
  have hS : S.length = 4 * (S.length / 4) := by omega
  rcases decode_seq_split _ S hS with
    hv | ⟨k, P, s0, s1, s2, s3, R, j, hSeq, hP, hPv, hj, hjv, hjn⟩
  · refine ⟨0, _, decode_seq_exact S O _ hS hv hO (by omega), ?_, ?_, Or.inl rfl⟩
    · constructor
      · intro h; exact absurd h (by decide)
      · rintro ⟨b, hb, hn⟩; exact absurd (hv b hb) hn
    · exact ⟨fun _ => hv, fun _ => rfl⟩
  · have hrun := decode_seq_fail_at k (S.length / 4) j P R O s0 s1 s2 s3 hP hPv
      (by rw [← hSeq]; exact hS) (by omega) hO hj hjv hjn
    rw [← hSeq, ← hS] at hrun
    have hmem : [s0, s1, s2, s3].getD j 0 ∈ S := by
      rw [hSeq]
      match j, hj with
      | 0, _ => simp
      | 1, _ => simp
      | 2, _ => simp
      | 3, _ => simp
    refine ⟨-1, _, hrun, ?_, ?_, Or.inr rfl⟩
    · exact ⟨fun _ => ⟨_, hmem, hjn⟩, fun _ => rfl⟩
    · constructor
      · intro h; exact absurd h (by decide)
      · intro h; exact absurd (h _ hmem) hjn

theorem decode_seq_fails_iff_witness :
    ∃ (r : Int) (out : List u8),
      decode_seq [84, 33, 70, 117] ([84, 33, 70, 117] : List u8).length [7, 7, 7] 0
        = some (r, out)
      ∧ (r = -1 ↔ ∃ b ∈ ([84, 33, 70, 117] : List u8), ¬ inAlphabet b)
      ∧ (r = 0 ↔ ∀ b ∈ ([84, 33, 70, 117] : List u8), inAlphabet b)
      ∧ (r = 0 ∨ r = -1) :=
  decode_seq_fails_iff [84, 33, 70, 117] [7, 7, 7] (by decide) (by decide) (by decide)

/-- C10. Table self-consistency: `values[symbols[i]] == i` for every `i` in `0..63`, and
`values[b]` is the sentinel 99 for every byte `b` that is not `symbols[i]` for any `i` in
`0..63`. -/
theorem table_self_consistency :
    (∀ i : u8, i.val < 64 → lookup values (lookup symbols i) = i)
    ∧ (∀ b : u8, (∀ i : u8, i.val < 64 → lookup symbols i ≠ b) → lookup values b = 99) := by
  constructor
  · intro i hi
    apply Fin.ext
    have := valueAt_lookup_symbols i
    unfold valueAt at this
    rw [this]
    exact Nat.mod_eq_of_lt hi
  · intro b hb
    have hn : ¬ inAlphabet b := by
      intro hin
      have hv := (valueAt_lt_iff b).mpr hin
      apply hb (toU8 (valueAt b))
      · show valueAt b % 256 < 64
        omega
      · exact symbolAt_valueAt b hin
    apply Fin.ext
    exact valueAt_eq_of_not b hn

theorem table_self_consistency_witness :
    lookup values (lookup symbols 19) = 19 ∧ lookup values 33 = 99 :=
  ⟨table_self_consistency.1 19 (by decide), table_self_consistency.2 33 (by decide!)⟩

/-- C11. Sentinel property: for every byte `b` outside the alphabet `values[b] >= 64` and
`(values[b] & 0xC0) != 0`; for every byte `b` of the alphabet `values[b] <= 63` and
`(values[b] & 0xC0) == 0`. -/
theorem sentinel_property (b : u8) :
    (¬ inAlphabet b → 64 ≤ valueAt b ∧ valueAt b &&& 0xC0 ≠ 0)
    ∧ (inAlphabet b → valueAt b ≤ 63 ∧ valueAt b &&& 0xC0 = 0) := by
  constructor
  · intro h
    rw [valueAt_eq_of_not b h]
    decide
  · intro h
    have hv := (valueAt_lt_iff b).mpr h
    exact ⟨by omega, and_192 _ hv⟩

theorem sentinel_property_witness :
    (64 ≤ valueAt 33 ∧ valueAt 33 &&& 0xC0 ≠ 0) ∧ (valueAt 84 ≤ 63 ∧ valueAt 84 &&& 0xC0 = 0) :=
  ⟨(sentinel_property 33).1 (by decide!), (sentinel_property 84).2 (by decide!)⟩

set_option maxRecDepth 100000 in
theorem symbols_content (i : u8) :
    (i.val < 26 → (lookup symbols i).val = ('A').toNat + i.val)
    ∧ (26 ≤ i.val → i.val < 52 → (lookup symbols i).val = ('a').toNat + (i.val - 26))
    ∧ (52 ≤ i.val → i.val < 62 → (lookup symbols i).val = ('0').toNat + (i.val - 52))
    ∧ (i.val = 62 → (lookup symbols i).val = ('+').toNat)
    ∧ (i.val = 63 → (lookup symbols i).val = ('/').toNat) := by
  revert i; decide!

/-- C13. Alphabet content and distinctness: the entries `0..63` of `symbols` are, in order,
`'A'..'Z'` (indices 0..25), `'a'..'z'` (26..51), `'0'..'9'` (52..61), `'+'` (62) and
`'/'` (63), and they are pairwise distinct. -/
theorem alphabet_content_distinct :
    (∀ i : u8, i.val < 26 → (lookup symbols i).val = ('A').toNat + i.val)
    ∧ (∀ i : u8, 26 ≤ i.val → i.val < 52 → (lookup symbols i).val = ('a').toNat + (i.val - 26))
    ∧ (∀ i : u8, 52 ≤ i.val → i.val < 62 → (lookup symbols i).val = ('0').toNat + (i.val - 52))
    ∧ (lookup symbols 62).val = ('+').toNat
    ∧ (lookup symbols 63).val = ('/').toNat
    ∧ (∀ i j : u8, i.val < 64 → j.val < 64 → lookup symbols i = lookup symbols j → i = j) := by
  refine ⟨fun i => (symbols_content i).1, fun i => (symbols_content i).2.1,
    fun i => (symbols_content i).2.2.1, (symbols_content 62).2.2.2.1 rfl,
    (symbols_content 63).2.2.2.2 rfl, ?_⟩
  intro i j hi hj h
  have h1 := valueAt_lookup_symbols i
  have h2 := valueAt_lookup_symbols j
  rw [h, h2] at h1
  apply Fin.ext
  omega

theorem alphabet_content_distinct_witness :
    (lookup symbols 25).val = ('A').toNat + (25 : u8).val
    ∧ (lookup symbols 51).val = ('a').toNat + ((51 : u8).val - 26)
    ∧ (lookup symbols 61).val = ('0').toNat + ((61 : u8).val - 52)
    ∧ (5 : u8) = 5 :=
  ⟨alphabet_content_distinct.1 25 (by decide),
   alphabet_content_distinct.2.1 51 (by decide) (by decide),
   alphabet_content_distinct.2.2.1 61 (by decide) (by decide),
   alphabet_content_distinct.2.2.2.2.2 5 5 (by decide) (by decide) rfl⟩

/-! ## Indexing blockwise images -/

theorem getElem?_mapBlocks4 (f : u8 → u8 → u8 → u8 → List u8)
    (hf : ∀ a b c d, (f a b c d).length = 3) (k : Nat) :
    ∀ (S : List u8) (s0 s1 s2 s3 : u8),
      S[4 * k]? = some s0 → S[4 * k + 1]? = some s1 → S[4 * k + 2]? = some s2 →
      S[4 * k + 3]? = some s3 →
      ∀ j, j < 3 → (mapBlocks4 f S)[3 * k + j]? = (f s0 s1 s2 s3)[j]? := by
  induction k with
  | zero =>
    intro S s0 s1 s2 s3 h0 h1 h2 h3 j hj
    match S, h0, h1, h2, h3 with
    | a :: b :: c :: d :: rest, h0, h1, h2, h3 =>
      simp only [Nat.mul_zero, Nat.zero_add, List.getElem?_cons_zero, List.getElem?_cons_succ,
        Option.some.injEq] at h0 h1 h2 h3
      subst h0 h1 h2 h3
      simp only [mapBlocks4, Nat.mul_zero, Nat.zero_add]
      exact List.getElem?_append_left (by rw [hf]; exact hj)
    | [], h0, _, _, _ => simp at h0
    | [_], _, h1, _, _ => simp at h1
    | [_, _], _, _, h2, _ => simp at h2
    | [_, _, _], _, _, _, h3 => simp at h3
  | succ k ih =>
    intro S s0 s1 s2 s3 h0 h1 h2 h3 j hj
    obtain ⟨hl, _⟩ := List.getElem?_eq_some_iff.mp h0
    match S, h0, h1, h2, h3, hl with
    | a :: b :: c :: d :: rest, h0, h1, h2, h3, _ =>
      have e0 : 4 * (k + 1) = 4 * k + 1 + 1 + 1 + 1 := by omega
      have e1 : 4 * (k + 1) + 1 = 4 * k + 1 + 1 + 1 + 1 + 1 := by omega
      have e2 : 4 * (k + 1) + 2 = 4 * k + 2 + 1 + 1 + 1 + 1 := by omega
      have e3 : 4 * (k + 1) + 3 = 4 * k + 3 + 1 + 1 + 1 + 1 := by omega
      rw [e0] at h0
      rw [e1] at h1
      rw [e2] at h2
      rw [e3] at h3
      simp only [List.getElem?_cons_succ] at h0 h1 h2 h3
      have := ih rest s0 s1 s2 s3 h0 h1 h2 h3 j hj
      rw [← this]
      simp only [mapBlocks4]
      rw [List.getElem?_append_right (by rw [hf]; omega), hf]
      congr 1
      omega
    | [], _, _, _, _, hl => simp at hl
    | [_], _, _, _, _, hl => simp at hl
    | [_, _], _, _, _, _, hl => simp at hl; omega
    | [_, _, _], _, _, _, _, hl => simp at hl; omega

/-- C14. The decoders recompose the 24-bit word: on `4 * n` alphabet symbols and an output
buffer of `3 * n` bytes both decoders return success with the same bytes `out`, and for
every block `k` with symbols `s0 s1 s2 s3`, whose values are `v0 v1 v2 v3` (each below 64),
where `w = v0 * 2^18 + v1 * 2^12 + v2 * 2^6 + v3`, the bytes `3k .. 3k+2` of `out` are
`(w >> 16) & 255`, `(w >> 8) & 255` and `w & 255`. -/
theorem decode_recomposes_word (S O : List u8) (n : Nat) (hS : S.length = 4 * n)
    (hv : ∀ b ∈ S, inAlphabet b) (hO : O.length = 3 * n) (hlt : 4 * n < 2 ^ 64) :
    ∃ out, decode_seq S S.length O 0 = some (0, out)
      ∧ decode_par S S.length O 0 = some (0, out)
      ∧ ∀ (k : Nat) (s0 s1 s2 s3 : u8),
          S[4 * k]? = some s0 → S[4 * k + 1]? = some s1 → S[4 * k + 2]? = some s2 →
          S[4 * k + 3]? = some s3 →
          valueAt s0 < 64 ∧ valueAt s1 < 64 ∧ valueAt s2 < 64 ∧ valueAt s3 < 64
          ∧ ∃ b0 b1 b2 : u8,
              out[3 * k]? = some b0 ∧ out[3 * k + 1]? = some b1 ∧ out[3 * k + 2]? = some b2
              ∧ b0.val = ((valueAt s0 * 2 ^ 18 + valueAt s1 * 2 ^ 12 + valueAt s2 * 2 ^ 6
                  + valueAt s3) >>> 16) &&& 255
              ∧ b1.val = ((valueAt s0 * 2 ^ 18 + valueAt s1 * 2 ^ 12 + valueAt s2 * 2 ^ 6
                  + valueAt s3) >>> 8) &&& 255
              ∧ b2.val = (valueAt s0 * 2 ^ 18 + valueAt s1 * 2 ^ 12 + valueAt s2 * 2 ^ 6
                  + valueAt s3) &&& 255 := by
  refine ⟨_, decode_seq_exact S O n hS hv hO hlt, decode_par_exact S O n hS hv hO hlt, ?_⟩
  intro k s0 s1 s2 s3 h0 h1 h2 h3
  have v0 := (valueAt_lt_iff s0).mpr (hv s0 (List.getElem?_mem h0))
  have v1 := (valueAt_lt_iff s1).mpr (hv s1 (List.getElem?_mem h1))
  have v2 := (valueAt_lt_iff s2).mpr (hv s2 (List.getElem?_mem h2))
  have v3 := (valueAt_lt_iff s3).mpr (hv s3 (List.getElem?_mem h3))
  have key := getElem?_mapBlocks4 decode_seq_block (fun _ _ _ _ => rfl) k S s0 s1 s2 s3
    h0 h1 h2 h3
  rw [← decode_block_eq s0 s1 s2 s3 v1 v2 v3, decode_par_block_arith s0 s1 s2 s3 v1 v2 v3]
    at key
  have k0 := key 0 (by omega)
  have k1 := key 1 (by omega)
  have k2 := key 2 (by omega)
  simp only [Nat.add_zero, List.getElem?_cons_zero, List.getElem?_cons_succ] at k0 k1 k2
  have m : ∀ x : Nat, x &&& 255 = x % 256 := fun x => Nat.and_pow_two_sub_one_eq_mod x 8
  refine ⟨v0, v1, v2, v3, _, _, _, k0, k1, k2, ?_, ?_, ?_⟩
  · simp only [m, Nat.shiftRight_eq_div_pow, Nat.reducePow]; rfl
  · simp only [m, Nat.shiftRight_eq_div_pow, Nat.reducePow]; rfl
  · simp only [m, Nat.reducePow]; rfl

theorem decode_recomposes_word_witness :
    ∃ out, decode_seq [84, 87, 70, 117] ([84, 87, 70, 117] : List u8).length [7, 7, 7] 0
        = some (0, out)
      ∧ decode_par [84, 87, 70, 117] ([84, 87, 70, 117] : List u8).length [7, 7, 7] 0
        = some (0, out)
      ∧ ∀ (k : Nat) (s0 s1 s2 s3 : u8),
          ([84, 87, 70, 117] : List u8)[4 * k]? = some s0 →
          ([84, 87, 70, 117] : List u8)[4 * k + 1]? = some s1 →
          ([84, 87, 70, 117] : List u8)[4 * k + 2]? = some s2 →
          ([84, 87, 70, 117] : List u8)[4 * k + 3]? = some s3 →
          valueAt s0 < 64 ∧ valueAt s1 < 64 ∧ valueAt s2 < 64 ∧ valueAt s3 < 64
          ∧ ∃ b0 b1 b2 : u8,
              out[3 * k]? = some b0 ∧ out[3 * k + 1]? = some b1 ∧ out[3 * k + 2]? = some b2
              ∧ b0.val = ((valueAt s0 * 2 ^ 18 + valueAt s1 * 2 ^ 12 + valueAt s2 * 2 ^ 6
                  + valueAt s3) >>> 16) &&& 255
              ∧ b1.val = ((valueAt s0 * 2 ^ 18 + valueAt s1 * 2 ^ 12 + valueAt s2 * 2 ^ 6
                  + valueAt s3) >>> 8) &&& 255
              ∧ b2.val = (valueAt s0 * 2 ^ 18 + valueAt s1 * 2 ^ 12 + valueAt s2 * 2 ^ 6
                  + valueAt s3) &&& 255 :=
  decode_recomposes_word [84, 87, 70, 117] [7, 7, 7] 1 (by decide) (by decide!) (by decide)
    (by decide)

/-! ## Concatenation and the reverse round trip -/

theorem mapBlocks3_append (f : u8 → u8 → u8 → List u8) (B : List u8) (a : Nat) :
    ∀ A : List u8, A.length = 3 * a →
      mapBlocks3 f (A ++ B) = mapBlocks3 f A ++ mapBlocks3 f B := by
  induction a with
  | zero =>
    intro A hA
    have : A = [] := List.length_eq_zero.mp (by simpa using hA)
    subst this
    simp [mapBlocks3]
  | succ a ih =>
    intro A hA
    obtain ⟨i0, i1, i2, rest, rfl, hrest⟩ := exists_cons3 A a hA
    have := ih rest hrest
    simp [mapBlocks3, this]

/-- C16. Chunked encoding concatenates: for byte sequences `A` and `B` whose lengths are
multiples of 3 and output buffers of the exact sizes, each encoder applied to `A ++ B`
returns the symbols it returns on `A` followed by the symbols it returns on `B`. -/
theorem encode_append (A B OA OB O : List u8) (hA : A.length % 3 = 0)
    (hB : B.length % 3 = 0) (hlt : (A ++ B).length < 2 ^ 64)
    (hOA : OA.length = 4 * (A.length / 3)) (hOB : OB.length = 4 * (B.length / 3))
    (hO : O.length = 4 * ((A ++ B).length / 3)) :
    (∃ EA EB, encode_seq A A.length OA 0 = some EA ∧ encode_seq B B.length OB 0 = some EB
        ∧ encode_seq (A ++ B) (A ++ B).length O 0 = some (EA ++ EB))
    ∧ (∃ EA EB, encode_par A A.length OA 0 = some EA ∧ encode_par B B.length OB 0 = some EB
        ∧ encode_par (A ++ B) (A ++ B).length O 0 = some (EA ++ EB)) := by
  have hl : (A ++ B).length = A.length + B.length := List.length_append A B
  have hA3 : A.length = 3 * (A.length / 3) := by omega
  have hB3 : B.length = 3 * (B.length / 3) := by omega
  have hAB3 : (A ++ B).length = 3 * ((A ++ B).length / 3) := by omega
  have happ := mapBlocks3_append encode_seq_block B (A.length / 3) A hA3
  refine ⟨⟨_, _, encode_seq_exact A OA _ hA3 hOA (by omega),
      encode_seq_exact B OB _ hB3 hOB (by omega), ?_⟩,
    ⟨_, _, encode_par_exact A OA _ hA3 hOA (by omega),
      encode_par_exact B OB _ hB3 hOB (by omega), ?_⟩⟩
  · rw [← happ]
    exact encode_seq_exact (A ++ B) O _ hAB3 hO (by omega)
  · rw [← happ]
    exact encode_par_exact (A ++ B) O _ hAB3 hO (by omega)

theorem encode_append_witness :
    (∃ EA EB, encode_seq [77, 97, 110] ([77, 97, 110] : List u8).length [0, 0, 0, 0] 0 = some EA
        ∧ encode_seq [1, 2, 3] ([1, 2, 3] : List u8).length [0, 0, 0, 0] 0 = some EB
        ∧ encode_seq ([77, 97, 110] ++ [1, 2, 3]) (([77, 97, 110] : List u8) ++ [1, 2, 3]).length
            [0, 0, 0, 0, 0, 0, 0, 0] 0 = some (EA ++ EB))
    ∧ (∃ EA EB, encode_par [77, 97, 110] ([77, 97, 110] : List u8).length [0, 0, 0, 0] 0
          = some EA
        ∧ encode_par [1, 2, 3] ([1, 2, 3] : List u8).length [0, 0, 0, 0] 0 = some EB
        ∧ encode_par ([77, 97, 110] ++ [1, 2, 3]) (([77, 97, 110] : List u8) ++ [1, 2, 3]).length
            [0, 0, 0, 0, 0, 0, 0, 0] 0 = some (EA ++ EB)) :=
  encode_append [77, 97, 110] [1, 2, 3] [0, 0, 0, 0] [0, 0, 0, 0] [0, 0, 0, 0, 0, 0, 0, 0]
    (by decide) (by decide) (by decide) (by decide) (by decide) (by decide)

theorem encode_decode_block (s0 s1 s2 s3 : u8) (h0 : inAlphabet s0) (h1 : inAlphabet s1)
    (h2 : inAlphabet s2) (h3 : inAlphabet s3) :
    encode_seq_block (toU8 (valueAt s0 * 4 + valueAt s1 / 16))
      (toU8 (valueAt s1 * 16 + valueAt s2 / 4)) (toU8 (valueAt s2 * 64 + valueAt s3))
      = [s0, s1, s2, s3] := by
  have v0 := (valueAt_lt_iff s0).mpr h0
  have v1 := (valueAt_lt_iff s1).mpr h1
  have v2 := (valueAt_lt_iff s2).mpr h2
  have v3 := (valueAt_lt_iff s3).mpr h3
  have b0 : (toU8 (valueAt s0 * 4 + valueAt s1 / 16)).val
      = (valueAt s0 * 4 + valueAt s1 / 16) % 256 := rfl
  have b1 : (toU8 (valueAt s1 * 16 + valueAt s2 / 4)).val
      = (valueAt s1 * 16 + valueAt s2 / 4) % 256 := rfl
  have b2 : (toU8 (valueAt s2 * 64 + valueAt s3)).val
      = (valueAt s2 * 64 + valueAt s3) % 256 := rfl
  simp only [encode_seq_block]
  rw [shl_or_shr _ _ 4 4 (by norm_num),
    shl_or_shr _ _ 2 6 (by norm_num)]
  simp only [Nat.shiftRight_eq_div_pow, Nat.reducePow, b0, b1, b2]
  have e0 : symbolAt ((valueAt s0 * 4 + valueAt s1 / 16) % 256 / 4) = s0 := by
    exact (symbolAt_congr (by omega)).trans (symbolAt_valueAt s0 h0)
  have e1 : symbolAt ((valueAt s0 * 4 + valueAt s1 / 16) % 256 * 16
      + (valueAt s1 * 16 + valueAt s2 / 4) % 256 / 16) = s1 := by
    exact (symbolAt_congr (by omega)).trans (symbolAt_valueAt s1 h1)
  have e2 : symbolAt ((valueAt s1 * 16 + valueAt s2 / 4) % 256 * 4
      + (valueAt s2 * 64 + valueAt s3) % 256 / 64) = s2 := by
    exact (symbolAt_congr (by omega)).trans (symbolAt_valueAt s2 h2)
  have e3 : symbolAt ((valueAt s2 * 64 + valueAt s3) % 256) = s3 := by
    exact (symbolAt_congr (by omega)).trans (symbolAt_valueAt s3 h3)
  rw [e0, e1, e2, e3]

theorem encode_decode_blocks (k : Nat) : ∀ S : List u8, S.length = 4 * k →
    (∀ b ∈ S, inAlphabet b) →
    mapBlocks3 encode_seq_block (mapBlocks4 decode_seq_block S) = S := by
  induction k with
  | zero =>
    intro S hS _
    have : S = [] := List.length_eq_zero.mp (by simpa using hS)
    subst this
    simp [mapBlocks3, mapBlocks4]
  | succ k ih =>
    intro S hS hv
    obtain ⟨s0, s1, s2, s3, rest, rfl, hrest⟩ := exists_cons4 S k hS
    have h0 := hv s0 (by simp)
    have h1 := hv s1 (by simp)
    have h2 := hv s2 (by simp)
    have h3 := hv s3 (by simp)
    have v1 := (valueAt_lt_iff s1).mpr h1
    have v2 := (valueAt_lt_iff s2).mpr h2
    have v3 := (valueAt_lt_iff s3).mpr h3
    simp only [mapBlocks4]
    rw [decode_seq_block_arith s0 s1 s2 s3 v1 v2 v3]
    simp only [List.cons_append, List.nil_append, mapBlocks3]
    rw [encode_decode_block s0 s1 s2 s3 h0 h1 h2 h3]
    have := ih rest hrest (fun x hx => hv x (by simp [hx]))
    simp [this]

/-- C19. Reverse round trip: for a symbol sequence `S` of alphabet symbols whose length is
a multiple of 4, on buffers of the exact sizes, each decoder returns success with bytes
`D` on which each encoder returns `S` again; and each decoder is injective on such
sequences: a valid sequence `T` decoded to the same bytes as `S` is equal to `S`. -/
theorem reverse_roundtrip (S O1 O2 : List u8) (h4 : S.length % 4 = 0)
    (hlt : S.length < 2 ^ 64) (hv : ∀ b ∈ S, inAlphabet b)
    (hO1 : O1.length = 3 * (S.length / 4)) (hO2 : O2.length = S.length) :
    (∃ D, decode_seq S S.length O1 0 = some (0, D) ∧ encode_seq D D.length O2 0 = some S)
    ∧ (∃ D, decode_seq S S.length O1 0 = some (0, D) ∧ encode_par D D.length O2 0 = some S)
    ∧ (∃ D, decode_par S S.length O1 0 = some (0, D) ∧ encode_seq D D.length O2 0 = some S)
    ∧ (∃ D, decode_par S S.length O1 0 = some (0, D) ∧ encode_par D D.length O2 0 = some S)
    ∧ (∀ (T O3 D : List u8), T.length % 4 = 0 → T.length < 2 ^ 64 →
        (∀ b ∈ T, inAlphabet b) → O3.length = 3 * (T.length / 4) →
        decode_seq S S.length O1 0 = some (0, D) → decode_seq T T.length O3 0 = some (0, D) →
        T = S)
    ∧ (∀ (T O3 D : List u8), T.length % 4 = 0 → T.length < 2 ^ 64 →
        (∀ b ∈ T, inAlphabet b) → O3.length = 3 * (T.length / 4) →
        decode_par S S.length O1 0 = some (0, D) → decode_par T T.length O3 0 = some (0, D) →
        T = S) := by
  have hS : S.length = 4 * (S.length / 4) := by omega
  have hD := length_mapBlocks4 decode_seq_block (fun _ _ _ _ => rfl) _ S hS
  have ds := decode_seq_exact S O1 _ hS hv hO1 (by omega)
  have dp := decode_par_exact S O1 _ hS hv hO1 (by omega)
  have es := encode_seq_exact _ O2 _ hD (by omega) (by omega)
  have ep := encode_par_exact _ O2 _ hD (by omega) (by omega)
  have hback := encode_decode_blocks _ S hS hv
  rw [hback] at es ep
  have inj : ∀ T : List u8, T.length % 4 = 0 → (∀ b ∈ T, inAlphabet b) →
      mapBlocks4 decode_seq_block T = mapBlocks4 decode_seq_block S → T = S := by
    intro T hT4 hTv heq
    have hT : T.length = 4 * (T.length / 4) := by omega
    rw [← encode_decode_blocks _ T hT hTv, heq, hback]
  refine ⟨⟨_, ds, es⟩, ⟨_, ds, ep⟩, ⟨_, dp, es⟩, ⟨_, dp, ep⟩, ?_, ?_⟩
  · intro T O3 D hT4 hTlt hTv hO3 h1 h2
    have hT : T.length = 4 * (T.length / 4) := by omega
    rw [ds] at h1
    rw [decode_seq_exact T O3 _ hT hTv hO3 (by omega)] at h2
    simp only [Option.some.injEq, Prod.mk.injEq, true_and] at h1 h2
    exact inj T hT4 hTv (h2.trans h1.symm)
  · intro T O3 D hT4 hTlt hTv hO3 h1 h2
    have hT : T.length = 4 * (T.length / 4) := by omega
    rw [dp] at h1
    rw [decode_par_exact T O3 _ hT hTv hO3 (by omega)] at h2
    simp only [Option.some.injEq, Prod.mk.injEq, true_and] at h1 h2
    exact inj T hT4 hTv (h2.trans h1.symm)

theorem reverse_roundtrip_witness :
    (∃ D, decode_seq [84, 87, 70, 117] ([84, 87, 70, 117] : List u8).length [7, 7, 7] 0
          = some (0, D)
        ∧ encode_seq D D.length [7, 7, 7, 7] 0 = some [84, 87, 70, 117])
    ∧ (∃ D, decode_seq [84, 87, 70, 117] ([84, 87, 70, 117] : List u8).length [7, 7, 7] 0
          = some (0, D)
        ∧ encode_par D D.length [7, 7, 7, 7] 0 = some [84, 87, 70, 117])
    ∧ (∃ D, decode_par [84, 87, 70, 117] ([84, 87, 70, 117] : List u8).length [7, 7, 7] 0
          = some (0, D)
        ∧ encode_seq D D.length [7, 7, 7, 7] 0 = some [84, 87, 70, 117])
    ∧ (∃ D, decode_par [84, 87, 70, 117] ([84, 87, 70, 117] : List u8).length [7, 7, 7] 0
          = some (0, D)
        ∧ encode_par D D.length [7, 7, 7, 7] 0 = some [84, 87, 70, 117])
    ∧ (∀ (T O3 D : List u8), T.length % 4 = 0 → T.length < 2 ^ 64 →
        (∀ b ∈ T, inAlphabet b) → O3.length = 3 * (T.length / 4) →
        decode_seq [84, 87, 70, 117] ([84, 87, 70, 117] : List u8).length [7, 7, 7] 0
          = some (0, D) →
        decode_seq T T.length O3 0 = some (0, D) → T = [84, 87, 70, 117])
    ∧ (∀ (T O3 D : List u8), T.length % 4 = 0 → T.length < 2 ^ 64 →
        (∀ b ∈ T, inAlphabet b) → O3.length = 3 * (T.length / 4) →
        decode_par [84, 87, 70, 117] ([84, 87, 70, 117] : List u8).length [7, 7, 7] 0
          = some (0, D) →
        decode_par T T.length O3 0 = some (0, D) → T = [84, 87, 70, 117]) :=
  reverse_roundtrip [84, 87, 70, 117] [7, 7, 7] [7, 7, 7, 7] (by decide) (by decide)
    (by decide!) (by decide) (by decide)

/-! ## Output sizes -/

theorem take_append_drop_eq (O : List u8) (m : Nat) :
    O = [] ++ O.take m ++ O.drop m := by simp

/-- C12. Output sizes and no padding. For an input of `L` bytes, `L % 3 == 0`, there are
`4 * (L / 3)` symbols `E`, all of the alphabet and none the padding character `=`, such
that on every output buffer `O` of at least that size each encoder returns `E` followed by
the rest of `O` unchanged. For an input of `M` symbols, `M % 4 == 0`, on which a decoder
returns success on a buffer of `3 * (M / 4)` bytes with output `out`: `out` has
`3 * (M / 4)` bytes, and on every buffer `O2` of at least that size the decoder returns
`out` followed by the rest of `O2` unchanged, so every position of the exact buffer is
written. -/
theorem output_sizes :
    (∀ B : List u8, B.length % 3 = 0 → B.length < 2 ^ 64 →
      ∃ E : List u8, E.length = 4 * (B.length / 3)
        ∧ (∀ s ∈ E, inAlphabet s ∧ s ≠ toU8 ('=').toNat)
        ∧ ∀ O : List u8, 4 * (B.length / 3) ≤ O.length →
            encode_seq B B.length O 0 = some (E ++ O.drop (4 * (B.length / 3)))
            ∧ encode_par B B.length O 0 = some (E ++ O.drop (4 * (B.length / 3))))
    ∧ (∀ S O out : List u8, S.length % 4 = 0 → S.length < 2 ^ 64 →
        O.length = 3 * (S.length / 4) → decode_seq S S.length O 0 = some (0, out) →
        out.length = 3 * (S.length / 4)
        ∧ ∀ O2 : List u8, 3 * (S.length / 4) ≤ O2.length →
            decode_seq S S.length O2 0 = some (0, out ++ O2.drop (3 * (S.length / 4))))
    ∧ (∀ S O out : List u8, S.length % 4 = 0 → S.length < 2 ^ 64 →
        O.length = 3 * (S.length / 4) → decode_par S S.length O 0 = some (0, out) →
        out.length = 3 * (S.length / 4)
        ∧ ∀ O2 : List u8, 3 * (S.length / 4) ≤ O2.length →
            decode_par S S.length O2 0 = some (0, out ++ O2.drop (3 * (S.length / 4)))) := by
  refine ⟨?_, ?_, ?_⟩
  · intro B h3 hlt
    have hB : B.length = 3 * (B.length / 3) := by omega
    refine ⟨mapBlocks3 encode_seq_block B, length_encode B _ hB, ?_, ?_⟩
    · intro s hs
      have hin := inAlphabet_encode _ B hB s hs
      refine ⟨hin, ?_⟩
      intro h
      rw [h] at hin
      revert hin
      decide!
    · intro O hO
      have hs := encode_seq_run _ B [] (O.take (4 * (B.length / 3)))
        (O.drop (4 * (B.length / 3))) hB (by rw [List.length_take]; omega) (by omega)
      have hp := encode_par_run _ B [] (O.take (4 * (B.length / 3)))
        (O.drop (4 * (B.length / 3))) hB (by rw [List.length_take]; omega) (by omega)
      rw [mapBlocks3_par_eq_seq] at hp
      rw [← take_append_drop_eq, ← hB] at hs hp
      simp only [List.length_nil, List.nil_append] at hs hp
      exact ⟨hs, hp⟩
  · intro S O out h4 hlt hO hok
    have hS : S.length = 4 * (S.length / 4) := by omega
    have hv : ∀ b ∈ S, inAlphabet b := by
      rcases decode_seq_split _ S hS with
        hv | ⟨k, P, s0, s1, s2, s3, R, j, hSeq, hP, hPv, hj, hjv, hjn⟩
      · exact hv
      · exfalso
        have hrun := decode_seq_fail_at k (S.length / 4) j P R O s0 s1 s2 s3 hP hPv
          (by rw [← hSeq]; exact hS) (by omega) hO hj hjv hjn
        rw [← hSeq, ← hS, hok] at hrun
        simp at hrun
    have hex := decode_seq_exact S O _ hS hv hO (by omega)
    rw [hok] at hex
    simp only [Option.some.injEq, Prod.mk.injEq, true_and] at hex
    refine ⟨by rw [hex]; exact length_mapBlocks4 decode_seq_block (fun _ _ _ _ => rfl) _ S hS,
      ?_⟩
    intro O2 hO2
    have hr := decode_seq_run _ S [] (O2.take (3 * (S.length / 4)))
      (O2.drop (3 * (S.length / 4))) hS hv (by rw [List.length_take]; omega) (by omega)
    rw [← take_append_drop_eq, ← hS] at hr
    simp only [List.length_nil, List.nil_append] at hr
    rw [hr, hex]
  · intro S O out h4 hlt hO hok
    have hS : S.length = 4 * (S.length / 4) := by omega
    have hacc : decode_par_accepts S := by
      rcases decode_par_split _ S hS with
        hacc | ⟨k, P, i0, i1, i2, i3, R, hSeq, hP, hk, hacc, hrej⟩
      · exact hacc
      · exfalso
        have hrun := decode_par_fail_at k (S.length / 4) P R O i0 i1 i2 i3 hP hacc hrej
          (by rw [← hSeq]; exact hS) (by omega) hO
        rw [← hSeq, ← hS, hok] at hrun
        simp at hrun
    have hex := decode_par_run _ S [] O [] hS hacc hO (by omega)
    simp only [List.nil_append, List.append_nil, List.length_nil] at hex
    rw [← hS, hok] at hex
    simp only [Option.some.injEq, Prod.mk.injEq, true_and] at hex
    refine ⟨by rw [hex]; exact length_mapBlocks4 decode_par_block (fun _ _ _ _ => rfl) _ S hS,
      ?_⟩
    intro O2 hO2
    have hr := decode_par_run _ S [] (O2.take (3 * (S.length / 4)))
      (O2.drop (3 * (S.length / 4))) hS hacc (by rw [List.length_take]; omega) (by omega)
    rw [← take_append_drop_eq, ← hS] at hr
    simp only [List.length_nil, List.nil_append] at hr
    rw [hr, hex]

theorem output_sizes_witness :
    (∃ E : List u8, E.length = 4 * (([77, 97, 110] : List u8).length / 3)
        ∧ (∀ s ∈ E, inAlphabet s ∧ s ≠ toU8 ('=').toNat)
        ∧ ∀ O : List u8, 4 * (([77, 97, 110] : List u8).length / 3) ≤ O.length →
            encode_seq [77, 97, 110] ([77, 97, 110] : List u8).length O 0
              = some (E ++ O.drop (4 * (([77, 97, 110] : List u8).length / 3)))
            ∧ encode_par [77, 97, 110] ([77, 97, 110] : List u8).length O 0
              = some (E ++ O.drop (4 * (([77, 97, 110] : List u8).length / 3))))
    ∧ (([77, 97, 110] : List u8).length = 3 * (([84, 87, 70, 117] : List u8).length / 4)
        ∧ ∀ O2 : List u8, 3 * (([84, 87, 70, 117] : List u8).length / 4) ≤ O2.length →
            decode_seq [84, 87, 70, 117] ([84, 87, 70, 117] : List u8).length O2 0
              = some (0, [77, 97, 110]
                  ++ O2.drop (3 * (([84, 87, 70, 117] : List u8).length / 4))))
    ∧ (([78, 49, 110] : List u8).length = 3 * (([84, 33, 70, 117] : List u8).length / 4)
        ∧ ∀ O2 : List u8, 3 * (([84, 33, 70, 117] : List u8).length / 4) ≤ O2.length →
            decode_par [84, 33, 70, 117] ([84, 33, 70, 117] : List u8).length O2 0
              = some (0, [78, 49, 110]
                  ++ O2.drop (3 * (([84, 33, 70, 117] : List u8).length / 4)))) :=
  ⟨output_sizes.1 [77, 97, 110] (by decide) (by decide),
   output_sizes.2.1 [84, 87, 70, 117] [7, 7, 7] [77, 97, 110] (by decide) (by decide)
     (by decide) (by decide),
   output_sizes.2.2 [84, 33, 70, 117] [7, 7, 7] [78, 49, 110] (by decide) (by decide)
     (by decide) (by decide)⟩

/-! ## Exact failure condition of the packed decoder -/

theorem isBlock_cons (a0 b0 c0 d0 : u8) (rest : List u8) (j : Nat) (a b c d : u8) :
    isBlock (a0 :: b0 :: c0 :: d0 :: rest) (j + 1) a b c d ↔ isBlock rest j a b c d := by
  have e0 : 4 * (j + 1) = 4 * j + 1 + 1 + 1 + 1 := by omega
  have e1 : 4 * (j + 1) + 1 = 4 * j + 1 + 1 + 1 + 1 + 1 := by omega
  have e2 : 4 * (j + 1) + 2 = 4 * j + 2 + 1 + 1 + 1 + 1 := by omega
  have e3 : 4 * (j + 1) + 3 = 4 * j + 3 + 1 + 1 + 1 + 1 := by omega
  unfold isBlock
  rw [e1, e2, e3, e0]
  simp only [List.getElem?_cons_succ]

theorem isBlock_zero (a0 b0 c0 d0 : u8) (rest : List u8) (a b c d : u8) :
    isBlock (a0 :: b0 :: c0 :: d0 :: rest) 0 a b c d ↔ a0 = a ∧ b0 = b ∧ c0 = c ∧ d0 = d := by
  unfold isBlock
  simp

theorem isBlock_length {S : List u8} {j : Nat} {a b c d : u8} (h : isBlock S j a b c d) :
    4 * j + 3 < S.length := by
  obtain ⟨hl, _⟩ := List.getElem?_eq_some_iff.mp h.2.2.2
  exact hl

theorem isBlock_append_left (P R : List u8) (j : Nat) (a b c d : u8)
    (hj : 4 * j + 3 < P.length) :
    isBlock (P ++ R) j a b c d ↔ isBlock P j a b c d := by
  unfold isBlock
  rw [List.getElem?_append_left (by omega), List.getElem?_append_left (by omega),
    List.getElem?_append_left (by omega), List.getElem?_append_left hj]

theorem isBlock_append_right (P R : List u8) (k : Nat) (a b c d : u8)
    (hP : P.length = 4 * k) : isBlock (P ++ a :: b :: c :: d :: R) k a b c d := by
  unfold isBlock
  rw [List.getElem?_append_right (by omega), List.getElem?_append_right (by omega),
    List.getElem?_append_right (by omega), List.getElem?_append_right (by omega)]
  have e0 : 4 * k - P.length = 0 := by omega
  have e1 : 4 * k + 1 - P.length = 1 := by omega
  have e2 : 4 * k + 2 - P.length = 2 := by omega
  have e3 : 4 * k + 3 - P.length = 3 := by omega
  rw [e0, e1, e2, e3]
  simp

theorem decode_par_accepts_block (j : Nat) : ∀ (P : List u8) (a b c d : u8),
    decode_par_accepts P → isBlock P j a b c d → ¬ decode_par_rejects a b c d := by
  induction j with
  | zero =>
    intro P a b c d hacc hb
    have hl := isBlock_length hb
    match P, hacc, hb, hl with
    | a0 :: b0 :: c0 :: d0 :: rest, hacc, hb, _ =>
      obtain ⟨rfl, rfl, rfl, rfl⟩ := (isBlock_zero _ _ _ _ _ _ _ _ _).mp hb
      exact hacc.1
    | [], _, _, hl => simp at hl
    | [_], _, _, hl => simp at hl
    | [_, _], _, _, hl => simp at hl
    | [_, _, _], _, _, hl => simp at hl
  | succ j ih =>
    intro P a b c d hacc hb
    have hl := isBlock_length hb
    match P, hacc, hb, hl with
    | a0 :: b0 :: c0 :: d0 :: rest, hacc, hb, _ =>
      exact ih rest a b c d hacc.2 ((isBlock_cons _ _ _ _ _ _ _ _ _ _).mp hb)
    | [], _, _, hl => simp at hl
    | [_], _, _, hl => simp at hl
    | [_, _], _, _, hl => simp at hl; omega
    | [_, _, _], _, _, hl => simp at hl

/-- C18. Exact failure condition of the packed decoder: on `4 * n` symbols and an output
buffer of `3 * n` bytes `decode_par` returns a value `r`, 0 or -1, and `r` is -1 if and only
if some block of the input has all four symbols outside the alphabet. When it is -1, it
has returned at the first such block `k`: no earlier block has all four symbols outside the
alphabet, the output from position `3 * k` on is unchanged, and every earlier block,
whatever the number of its symbols outside the alphabet, has been stored with the bytes
that an iteration of `decode_par` computes for it. -/
theorem decode_par_fails_iff (S O : List u8) (n : Nat) (hS : S.length = 4 * n)
    (hO : O.length = 3 * n) (hlt : 4 * n < 2 ^ 64) :
    ∃ (r : Int) (out : List u8), decode_par S S.length O 0 = some (r, out)
      ∧ (r = 0 ∨ r = -1)
      ∧ (r = -1 ↔ ∃ (j : Nat) (a b c d : u8), isBlock S j a b c d
            ∧ ¬ inAlphabet a ∧ ¬ inAlphabet b ∧ ¬ inAlphabet c ∧ ¬ inAlphabet d)
      ∧ (r = -1 → ∃ (k : Nat) (a b c d : u8), isBlock S k a b c d
            ∧ (¬ inAlphabet a ∧ ¬ inAlphabet b ∧ ¬ inAlphabet c ∧ ¬ inAlphabet d)
            ∧ (∀ (j : Nat) (a b c d : u8), j < k → isBlock S j a b c d →
                inAlphabet a ∨ inAlphabet b ∨ inAlphabet c ∨ inAlphabet d)
            ∧ out.drop (3 * k) = O.drop (3 * k)
            ∧ ∀ (j : Nat) (a b c d : u8), j < k → isBlock S j a b c d →
                [out[3 * j]?, out[3 * j + 1]?, out[3 * j + 2]?]
                  = (decode_par_block a b c d).map some) := by
  have notall : ∀ a b c d : u8, ¬ decode_par_rejects a b c d →
      inAlphabet a ∨ inAlphabet b ∨ inAlphabet c ∨ inAlphabet d := by
    intro a b c d h
    rw [decode_par_rejects_iff] at h
    by_cases ha : inAlphabet a
    · exact Or.inl ha
    by_cases hb : inAlphabet b
    · exact Or.inr (Or.inl hb)
    by_cases hc : inAlphabet c
    · exact Or.inr (Or.inr (Or.inl hc))
    by_cases hd : inAlphabet d
    · exact Or.inr (Or.inr (Or.inr hd))
    exact absurd ⟨ha, hb, hc, hd⟩ h
  rcases decode_par_split n S hS with hacc | ⟨k, P, i0, i1, i2, i3, R, rfl, hP, hk, hacc, hrej⟩
  · have hrun := decode_par_run n S [] O [] hS hacc hO hlt
    simp only [List.nil_append, List.append_nil, List.length_nil] at hrun
    rw [← hS] at hrun
    refine ⟨0, _, hrun, Or.inl rfl, ?_, ?_⟩
    · constructor
      · intro h; exact absurd h (by decide)
      · rintro ⟨j, a, b, c, d, hb, h⟩
        exact absurd ((decode_par_rejects_iff a b c d).mpr h)
          (decode_par_accepts_block j S a b c d hacc hb)
    · intro h; exact absurd h (by decide)
  · have hrun := decode_par_fail_at k n P R O i0 i1 i2 i3 hP hacc hrej hS hlt hO
    rw [← hS] at hrun
    have hblk := isBlock_append_right P R k i0 i1 i2 i3 hP
    have hinv := (decode_par_rejects_iff i0 i1 i2 i3).mp hrej
    have hD : (mapBlocks4 decode_par_block P).length = 3 * k :=
      length_mapBlocks4 decode_par_block (fun _ _ _ _ => rfl) k P hP
    have hearlier : ∀ (j : Nat) (a b c d : u8), j < k →
        isBlock (P ++ i0 :: i1 :: i2 :: i3 :: R) j a b c d → isBlock P j a b c d :=
      fun j a b c d hj hb => (isBlock_append_left P _ j a b c d (by omega)).mp hb
    refine ⟨-1, _, hrun, Or.inr rfl, ⟨fun _ => ⟨k, i0, i1, i2, i3, hblk, hinv⟩, fun _ => rfl⟩,
      fun _ => ⟨k, i0, i1, i2, i3, hblk, hinv, ?_, List.drop_left' hD, ?_⟩⟩
    · intro j a b c d hj hb
      exact notall a b c d (decode_par_accepts_block j P a b c d hacc (hearlier j a b c d hj hb))
    · intro j a b c d hj hb
      have hbP := hearlier j a b c d hj hb
      have key := getElem?_mapBlocks4 decode_par_block (fun _ _ _ _ => rfl) j P a b c d
        hbP.1 hbP.2.1 hbP.2.2.1 hbP.2.2.2
      have k0 := key 0 (by omega)
      have k1 := key 1 (by omega)
      have k2 := key 2 (by omega)
      rw [List.getElem?_append_left (by omega), List.getElem?_append_left (by omega),
        List.getElem?_append_left (by omega)]
      rw [Nat.add_zero] at k0
      rw [k0, k1, k2]
      simp [decode_par_block]

theorem decode_par_fails_iff_witness :
    ∃ (r : Int) (out : List u8),
      decode_par [84, 33, 70, 117, 33, 33, 33, 33]
          ([84, 33, 70, 117, 33, 33, 33, 33] : List u8).length [7, 7, 7, 7, 7, 7] 0
        = some (r, out)
      ∧ (r = 0 ∨ r = -1)
      ∧ (r = -1 ↔ ∃ (j : Nat) (a b c d : u8),
            isBlock [84, 33, 70, 117, 33, 33, 33, 33] j a b c d
            ∧ ¬ inAlphabet a ∧ ¬ inAlphabet b ∧ ¬ inAlphabet c ∧ ¬ inAlphabet d)
      ∧ (r = -1 → ∃ (k : Nat) (a b c d : u8),
            isBlock [84, 33, 70, 117, 33, 33, 33, 33] k a b c d
            ∧ (¬ inAlphabet a ∧ ¬ inAlphabet b ∧ ¬ inAlphabet c ∧ ¬ inAlphabet d)
            ∧ (∀ (j : Nat) (a b c d : u8), j < k →
                isBlock [84, 33, 70, 117, 33, 33, 33, 33] j a b c d →
                inAlphabet a ∨ inAlphabet b ∨ inAlphabet c ∨ inAlphabet d)
            ∧ out.drop (3 * k) = ([7, 7, 7, 7, 7, 7] : List u8).drop (3 * k)
            ∧ ∀ (j : Nat) (a b c d : u8), j < k →
                isBlock [84, 33, 70, 117, 33, 33, 33, 33] j a b c d →
                [out[3 * j]?, out[3 * j + 1]?, out[3 * j + 2]?]
                  = (decode_par_block a b c d).map some) :=
  decode_par_fails_iff [84, 33, 70, 117, 33, 33, 33, 33] [7, 7, 7, 7, 7, 7] 2 (by decide)
    (by decide) (by decide)

/-! ## A failure does not depend on later blocks -/

theorem decode_seq_body_rest (i0 i1 i2 i3 : u8) (r1 r2 output : List u8) (pos : Nat) :
    decode_seq_body (i0 :: i1 :: i2 :: i3 :: r1) output pos
      = decode_seq_body (i0 :: i1 :: i2 :: i3 :: r2) output pos := by
  simp only [decode_seq_body, List.getElem?_cons_zero, List.getElem?_cons_succ]

theorem decode_par_body_rest (i0 i1 i2 i3 : u8) (r1 r2 output : List u8) (pos : Nat) :
    decode_par_body (i0 :: i1 :: i2 :: i3 :: r1) output pos
      = decode_par_body (i0 :: i1 :: i2 :: i3 :: r2) output pos := by
  simp only [decode_par_body, List.getElem?_cons_zero, List.getElem?_cons_succ]

theorem usize_sub_four (k m : Nat) (h : 4 * (k + 1) + m < 2 ^ 64) :
    usize_sub (4 * (k + 1) + m) 4 = 4 * k + m := by
  have e : 4 * (k + 1) + m = 4 * k + m + 4 := by omega
  rw [e]
  exact usize_sub_step (4 * k + m) 4 (by omega)

theorem decode_seq_fail_stable (k : Nat) : ∀ (P R O out : List u8) (pos m : Nat),
    P.length = 4 * k → 4 * k + m < 2 ^ 64 →
    decode_seq P (4 * k) O pos = some (-1, out) →
    decode_seq (P ++ R) (4 * k + m) O pos = some (-1, out) := by
  induction k with
  | zero =>
    intro P R O out pos m hP _ h
    have hP0 : P = [] := List.length_eq_zero.mp (by simpa using hP)
    subst hP0
    rw [Nat.mul_zero, decode_seq_nil] at h
    simp at h
  | succ k ih =>
    intro P R O out pos m hP hlt h
    obtain ⟨i0, i1, i2, i3, rest, rfl, hrest⟩ := exists_cons4 P k hP
    have h0 := usize_sub_four k 0 (by omega)
    simp only [Nat.add_zero] at h0
    rw [decode_seq, if_neg (by omega), h0] at h
    rw [List.cons_append, List.cons_append, List.cons_append, List.cons_append, decode_seq,
      if_neg (by omega), usize_sub_four k m hlt,
      decode_seq_body_rest i0 i1 i2 i3 (rest ++ R) rest]
    cases hb : decode_seq_body (i0 :: i1 :: i2 :: i3 :: rest) O pos with
    | none => rw [hb] at h; simp [Flow.andThen] at h
    | some f =>
      cases f with
      | returned r o => rw [hb] at h; simpa [Flow.andThen] using h
      | next o =>
        rw [hb] at h
        simp only [Flow.andThen] at h ⊢
        exact ih rest R o out (pos + 3) m hrest (by omega) h

theorem decode_par_fail_stable (k : Nat) : ∀ (P R O out : List u8) (pos m : Nat),
    P.length = 4 * k → 4 * k + m < 2 ^ 64 →
    decode_par P (4 * k) O pos = some (-1, out) →
    decode_par (P ++ R) (4 * k + m) O pos = some (-1, out) := by
  induction k with
  | zero =>
    intro P R O out pos m hP _ h
    have hP0 : P = [] := List.length_eq_zero.mp (by simpa using hP)
    subst hP0
    rw [Nat.mul_zero, decode_par_nil] at h
    simp at h
  | succ k ih =>
    intro P R O out pos m hP hlt h
    obtain ⟨i0, i1, i2, i3, rest, rfl, hrest⟩ := exists_cons4 P k hP
    have h0 := usize_sub_four k 0 (by omega)
    simp only [Nat.add_zero] at h0
    rw [decode_par, if_neg (by omega), h0] at h
    rw [List.cons_append, List.cons_append, List.cons_append, List.cons_append, decode_par,
      if_neg (by omega), usize_sub_four k m hlt,
      decode_par_body_rest i0 i1 i2 i3 (rest ++ R) rest]
    cases hb : decode_par_body (i0 :: i1 :: i2 :: i3 :: rest) O pos with
    | none => rw [hb] at h; simp [Flow.andThen] at h
    | some f =>
      cases f with
      | returned r o => rw [hb] at h; simpa [Flow.andThen] using h
      | next o =>
        rw [hb] at h
        simp only [Flow.andThen] at h ⊢
        exact ih rest R o out (pos + 3) m hrest (by omega) h

theorem take_length_blocks (S : List u8) (k : Nat) (hk : 4 * (k + 1) ≤ S.length) :
    (S.take (4 * (k + 1))).length = 4 * (k + 1) := by
  rw [List.length_take]; omega

/-- C15. Failure aborts the call. Let two inputs `S1` and `S2` of the same length, a
multiple of 4, agree on blocks `0..k`, and let a decoder fail on `S1` at block `k`: it
returns -1 on `S1`, and already returns -1 when it is given only the blocks `0..k` of `S1`.
Then, from the same initial output buffer, it returns -1 on `S2` with the same output
buffer as on `S1`. This holds for `decode_seq` and for `decode_par`. -/
theorem failure_aborts (S1 S2 O out cut : List u8) (k : Nat) (hlen : S1.length = S2.length)
    (h4 : S1.length % 4 = 0) (hlt : S1.length < 2 ^ 64) (hk : 4 * (k + 1) ≤ S1.length)
    (hagree : S1.take (4 * (k + 1)) = S2.take (4 * (k + 1))) :
    (decode_seq S1 S1.length O 0 = some (-1, out) →
      decode_seq (S1.take (4 * (k + 1))) (4 * (k + 1)) O 0 = some (-1, cut) →
      decode_seq S2 S2.length O 0 = some (-1, out))
    ∧ (decode_par S1 S1.length O 0 = some (-1, out) →
      decode_par (S1.take (4 * (k + 1))) (4 * (k + 1)) O 0 = some (-1, cut) →
      decode_par S2 S2.length O 0 = some (-1, out)) := by
  have hl := take_length_blocks S1 k hk
  have e1 : S1 = S1.take (4 * (k + 1)) ++ S1.drop (4 * (k + 1)) :=
    (List.take_append_drop _ _).symm
  have e2 : S2 = S1.take (4 * (k + 1)) ++ S2.drop (4 * (k + 1)) := by
    rw [hagree]; exact (List.take_append_drop _ _).symm
  have l1 : S1.length = 4 * (k + 1) + (S1.length - 4 * (k + 1)) := by omega
  have l2 : S2.length = 4 * (k + 1) + (S1.length - 4 * (k + 1)) := by omega
  constructor
  · intro h1 hcut
    have s1 := decode_seq_fail_stable (k + 1) _ (S1.drop (4 * (k + 1))) O cut 0
      (S1.length - 4 * (k + 1)) hl (by omega) hcut
    have s2 := decode_seq_fail_stable (k + 1) _ (S2.drop (4 * (k + 1))) O cut 0
      (S1.length - 4 * (k + 1)) hl (by omega) hcut
    rw [← e1, ← l1, h1] at s1
    rw [← e2, ← l2] at s2
    rw [s2, ← s1]
  · intro h1 hcut
    have s1 := decode_par_fail_stable (k + 1) _ (S1.drop (4 * (k + 1))) O cut 0
      (S1.length - 4 * (k + 1)) hl (by omega) hcut
    have s2 := decode_par_fail_stable (k + 1) _ (S2.drop (4 * (k + 1))) O cut 0
      (S1.length - 4 * (k + 1)) hl (by omega) hcut
    rw [← e1, ← l1, h1] at s1
    rw [← e2, ← l2] at s2
    rw [s2, ← s1]

theorem failure_aborts_witness :
    decode_seq [84, 87, 70, 33, 84, 87, 70, 117, 65, 65, 65, 65]
        ([84, 87, 70, 33, 84, 87, 70, 117, 65, 65, 65, 65] : List u8).length
        [7, 7, 7, 7, 7, 7, 7, 7, 7] 0 = some (-1, [77, 97, 7, 7, 7, 7, 7, 7, 7])
    ∧ decode_par [84, 87, 70, 117, 33, 33, 33, 33, 65, 65, 65, 65]
        ([84, 87, 70, 117, 33, 33, 33, 33, 65, 65, 65, 65] : List u8).length
        [7, 7, 7, 7, 7, 7, 7, 7, 7] 0 = some (-1, [77, 97, 110, 7, 7, 7, 7, 7, 7]) :=
  ⟨(failure_aborts [84, 87, 70, 33, 47, 47, 47, 47, 33, 33, 33, 33]
      [84, 87, 70, 33, 84, 87, 70, 117, 65, 65, 65, 65] [7, 7, 7, 7, 7, 7, 7, 7, 7]
      [77, 97, 7, 7, 7, 7, 7, 7, 7] [77, 97, 7, 7, 7, 7, 7, 7, 7] 0 (by decide) (by decide)
      (by decide) (by decide) (by decide)).1 (by decide) (by decide),
   (failure_aborts [84, 87, 70, 117, 33, 33, 33, 33, 33, 33, 33, 33]
      [84, 87, 70, 117, 33, 33, 33, 33, 65, 65, 65, 65] [7, 7, 7, 7, 7, 7, 7, 7, 7]
      [77, 97, 110, 7, 7, 7, 7, 7, 7] [77, 97, 110, 7, 7, 7, 7, 7, 7] 1 (by decide) (by decide)
      (by decide) (by decide) (by decide)).2 (by decide) (by decide)⟩

/-! ## The routines with an iteration counter -/

theorem encode_seq_iters_snd : ∀ (input : List u8) (len : Nat) (output : List u8) (pos : Nat),
    (encode_seq_iters input len output pos).map Prod.snd = encode_seq input len output pos
  | i0 :: i1 :: i2 :: rest, len, output, pos => by
    rw [encode_seq_iters, encode_seq]
    by_cases h : len = 0
    · simp [h]
    · rw [if_neg h, if_neg h]
      cases encode_seq_body (i0 :: i1 :: i2 :: rest) output pos with
      | none => rfl
      | some o =>
        simp only [Option.some_bind, Option.map_map]
        rw [← encode_seq_iters_snd rest (usize_sub len 3) o (pos + 4)]
        rfl
  | [], len, output, pos => by
    by_cases h : len = 0 <;> simp [encode_seq_iters, encode_seq, h]
  | [_], len, output, pos => by
    by_cases h : len = 0 <;> simp [encode_seq_iters, encode_seq, h]
  | [_, _], len, output, pos => by
    by_cases h : len = 0 <;> simp [encode_seq_iters, encode_seq, h]

theorem encode_seq_iters_le : ∀ (input : List u8) (len : Nat) (output : List u8) (pos : Nat)
    (it : Nat) (E : List u8),
    encode_seq_iters input len output pos = some (it, E) → 3 * it ≤ input.length
  | i0 :: i1 :: i2 :: rest, len, output, pos, it, E => by
    intro h
    rw [encode_seq_iters] at h
    by_cases hl : len = 0
    · simp [hl] at h; omega
    · rw [if_neg hl] at h
      cases hb : encode_seq_body (i0 :: i1 :: i2 :: rest) output pos with
      | none => rw [hb] at h; simp at h
      | some o =>
        rw [hb] at h
        simp only [Option.some_bind] at h
        cases hr : encode_seq_iters rest (usize_sub len 3) o (pos + 4) with
        | none => rw [hr] at h; simp at h
        | some r =>
          rw [hr] at h
          simp only [Option.map_some', Option.some.injEq, Prod.mk.injEq] at h
          have := encode_seq_iters_le rest (usize_sub len 3) o (pos + 4) r.1 r.2 hr
          simp only [List.length_cons]
          omega
  | [], len, output, pos, it, E => by
    intro h
    by_cases hl : len = 0 <;> simp [encode_seq_iters, hl] at h
    omega
  | [_], len, output, pos, it, E => by
    intro h
    by_cases hl : len = 0 <;> simp [encode_seq_iters, hl] at h
    omega
  | [_, _], len, output, pos, it, E => by
    intro h
    by_cases hl : len = 0 <;> simp [encode_seq_iters, hl] at h
    omega

theorem encode_par_iters_snd : ∀ (input : List u8) (len : Nat) (output : List u8) (pos : Nat),
    (encode_par_iters input len output pos).map Prod.snd = encode_par input len output pos
  | i0 :: i1 :: i2 :: rest, len, output, pos => by
    rw [encode_par_iters, encode_par]
    by_cases h : len = 0
    · simp [h]
    · rw [if_neg h, if_neg h]
      cases encode_par_body (i0 :: i1 :: i2 :: rest) output pos with
      | none => rfl
      | some o =>
        simp only [Option.some_bind, Option.map_map]
        rw [← encode_par_iters_snd rest (usize_sub len 3) o (pos + 4)]
        rfl
  | [], len, output, pos => by
    by_cases h : len = 0 <;> simp [encode_par_iters, encode_par, h]
  | [_], len, output, pos => by
    by_cases h : len = 0 <;> simp [encode_par_iters, encode_par, h]
  | [_, _], len, output, pos => by
    by_cases h : len = 0 <;> simp [encode_par_iters, encode_par, h]

theorem encode_par_iters_le : ∀ (input : List u8) (len : Nat) (output : List u8) (pos : Nat)
    (it : Nat) (E : List u8),
    encode_par_iters input len output pos = some (it, E) → 3 * it ≤ input.length
  | i0 :: i1 :: i2 :: rest, len, output, pos, it, E => by
    intro h
    rw [encode_par_iters] at h
    by_cases hl : len = 0
    · simp [hl] at h; omega
    · rw [if_neg hl] at h
      cases hb : encode_par_body (i0 :: i1 :: i2 :: rest) output pos with
      | none => rw [hb] at h; simp at h
      | some o =>
        rw [hb] at h
        simp only [Option.some_bind] at h
        cases hr : encode_par_iters rest (usize_sub len 3) o (pos + 4) with
        | none => rw [hr] at h; simp at h
        | some r =>
          rw [hr] at h
          simp only [Option.map_some', Option.some.injEq, Prod.mk.injEq] at h
          have := encode_par_iters_le rest (usize_sub len 3) o (pos + 4) r.1 r.2 hr
          simp only [List.length_cons]
          omega
  | [], len, output, pos, it, E => by
    intro h
    by_cases hl : len = 0 <;> simp [encode_par_iters, hl] at h
    omega
  | [_], len, output, pos, it, E => by
    intro h
    by_cases hl : len = 0 <;> simp [encode_par_iters, hl] at h
    omega
  | [_, _], len, output, pos, it, E => by
    intro h
    by_cases hl : len = 0 <;> simp [encode_par_iters, hl] at h
    omega

theorem decode_seq_iters_snd : ∀ (input : List u8) (len : Nat) (output : List u8) (pos : Nat),
    (decode_seq_iters input len output pos).map Prod.snd = decode_seq input len output pos
  | i0 :: i1 :: i2 :: i3 :: rest, len, output, pos => by
    rw [decode_seq_iters, decode_seq]
    by_cases h : len = 0
    · simp [h]
    · rw [if_neg h, if_neg h]
      cases decode_seq_body (i0 :: i1 :: i2 :: i3 :: rest) output pos with
      | none => rfl
      | some f =>
        cases f with
        | returned r o => rfl
        | next o =>
          simp only [Flow.andThen, Flow.andThenCount, Option.map_map]
          rw [← decode_seq_iters_snd rest (usize_sub len 4) o (pos + 3)]
          rfl
  | [], len, output, pos => by
    by_cases h : len = 0
    · simp [decode_seq_iters, decode_seq, h]
    · simp only [decode_seq_iters, decode_seq, if_neg h]
      cases decode_seq_body [] output pos with
      | none => rfl
      | some f => cases f <;> rfl
  | [a], len, output, pos => by
    by_cases h : len = 0
    · simp [decode_seq_iters, decode_seq, h]
    · simp only [decode_seq_iters, decode_seq, if_neg h]
      cases decode_seq_body [a] output pos with
      | none => rfl
      | some f => cases f <;> rfl
  | [a, b], len, output, pos => by
    by_cases h : len = 0
    · simp [decode_seq_iters, decode_seq, h]
    · simp only [decode_seq_iters, decode_seq, if_neg h]
      cases decode_seq_body [a, b] output pos with
      | none => rfl
      | some f => cases f <;> rfl
  | [a, b, c], len, output, pos => by
    by_cases h : len = 0
    · simp [decode_seq_iters, decode_seq, h]
    · simp only [decode_seq_iters, decode_seq, if_neg h]
      cases decode_seq_body [a, b, c] output pos with
      | none => rfl
      | some f => cases f <;> rfl

theorem decode_seq_body_nil (output : List u8) (pos : Nat) :
    decode_seq_body [] output pos = none := by
  simp [decode_seq_body]

theorem andThenCount_none_le (f : Option Flow) (it : Nat) (r : Int) (out : List u8)
    (h : Flow.andThenCount f (fun _ => none) = some (it, r, out)) : it = 1 := by
  cases f with
  | none => simp [Flow.andThenCount] at h
  | some f =>
    cases f with
    | returned r1 o =>
      simp only [Flow.andThenCount, Option.some.injEq, Prod.mk.injEq] at h
      exact h.1.symm
    | next o => simp [Flow.andThenCount] at h

theorem decode_seq_iters_le : ∀ (input : List u8) (len : Nat) (output : List u8) (pos : Nat)
    (it : Nat) (r : Int) (out : List u8),
    decode_seq_iters input len output pos = some (it, r, out) → 4 * it ≤ input.length + 3
  | i0 :: i1 :: i2 :: i3 :: rest, len, output, pos, it, r, out => by
    intro h
    rw [decode_seq_iters] at h
    by_cases hl : len = 0
    · simp [hl] at h; omega
    · rw [if_neg hl] at h
      cases hb : decode_seq_body (i0 :: i1 :: i2 :: i3 :: rest) output pos with
      | none => rw [hb] at h; simp [Flow.andThenCount] at h
      | some f =>
        rw [hb] at h
        cases f with
        | returned r1 o =>
          simp only [Flow.andThenCount, Option.some.injEq, Prod.mk.injEq] at h
          simp only [List.length_cons]
          omega
        | next o =>
          simp only [Flow.andThenCount] at h
          cases hr : decode_seq_iters rest (usize_sub len 4) o (pos + 3) with
          | none => rw [hr] at h; simp at h
          | some q =>
            rw [hr] at h
            simp only [Option.map_some', Option.some.injEq, Prod.mk.injEq] at h
            have := decode_seq_iters_le rest (usize_sub len 4) o (pos + 3) q.1 q.2.1 q.2.2 hr
            simp only [List.length_cons]
            omega
  | [], len, output, pos, it, r, out => by
    intro h
    by_cases hl : len = 0
    · simp [decode_seq_iters, hl] at h; omega
    · simp only [decode_seq_iters, if_neg hl, decode_seq_body_nil] at h
      simp [Flow.andThenCount] at h
  | [a], len, output, pos, it, r, out => by
    intro h
    by_cases hl : len = 0
    · simp [decode_seq_iters, hl] at h; omega
    · simp only [decode_seq_iters, if_neg hl] at h
      have := andThenCount_none_le _ it r out h
      simp only [List.length_cons]
      omega
  | [a, b], len, output, pos, it, r, out => by
    intro h
    by_cases hl : len = 0
    · simp [decode_seq_iters, hl] at h; omega
    · simp only [decode_seq_iters, if_neg hl] at h
      have := andThenCount_none_le _ it r out h
      simp only [List.length_cons]
      omega
  | [a, b, c], len, output, pos, it, r, out => by
    intro h
    by_cases hl : len = 0
    · simp [decode_seq_iters, hl] at h; omega
    · simp only [decode_seq_iters, if_neg hl] at h
      have := andThenCount_none_le _ it r out h
      simp only [List.length_cons]
      omega

theorem decode_par_iters_snd : ∀ (input : List u8) (len : Nat) (output : List u8) (pos : Nat),
    (decode_par_iters input len output pos).map Prod.snd = decode_par input len output pos
  | i0 :: i1 :: i2 :: i3 :: rest, len, output, pos => by
    rw [decode_par_iters, decode_par]
    by_cases h : len = 0
    · simp [h]
    · rw [if_neg h, if_neg h]
      cases decode_par_body (i0 :: i1 :: i2 :: i3 :: rest) output pos with
      | none => rfl
      | some f =>
        cases f with
        | returned r o => rfl
        | next o =>
          simp only [Flow.andThen, Flow.andThenCount, Option.map_map]
          rw [← decode_par_iters_snd rest (usize_sub len 4) o (pos + 3)]
          rfl
  | [], len, output, pos => by
    by_cases h : len = 0
    · simp [decode_par_iters, decode_par, h]
    · simp only [decode_par_iters, decode_par, if_neg h]
      cases decode_par_body [] output pos with
      | none => rfl
      | some f => cases f <;> rfl
  | [a], len, output, pos => by
    by_cases h : len = 0
    · simp [decode_par_iters, decode_par, h]
    · simp only [decode_par_iters, decode_par, if_neg h]
      cases decode_par_body [a] output pos with
      | none => rfl
      | some f => cases f <;> rfl
  | [a, b], len, output, pos => by
    by_cases h : len = 0
    · simp [decode_par_iters, decode_par, h]
    · simp only [decode_par_iters, decode_par, if_neg h]
      cases decode_par_body [a, b] output pos with
      | none => rfl
      | some f => cases f <;> rfl
  | [a, b, c], len, output, pos => by
    by_cases h : len = 0
    · simp [decode_par_iters, decode_par, h]
    · simp only [decode_par_iters, decode_par, if_neg h]
      cases decode_par_body [a, b, c] output pos with
      | none => rfl
      | some f => cases f <;> rfl

theorem decode_par_body_nil (output : List u8) (pos : Nat) :
    decode_par_body [] output pos = none := by
  simp [decode_par_body]

theorem decode_par_iters_le : ∀ (input : List u8) (len : Nat) (output : List u8) (pos : Nat)
    (it : Nat) (r : Int) (out : List u8),
    decode_par_iters input len output pos = some (it, r, out) → 4 * it ≤ input.length + 3
  | i0 :: i1 :: i2 :: i3 :: rest, len, output, pos, it, r, out => by
    intro h
    rw [decode_par_iters] at h
    by_cases hl : len = 0
    · simp [hl] at h; omega
    · rw [if_neg hl] at h
      cases hb : decode_par_body (i0 :: i1 :: i2 :: i3 :: rest) output pos with
      | none => rw [hb] at h; simp [Flow.andThenCount] at h
      | some f =>
        rw [hb] at h
        cases f with
        | returned r1 o =>
          simp only [Flow.andThenCount, Option.some.injEq, Prod.mk.injEq] at h
          simp only [List.length_cons]
          omega
        | next o =>
          simp only [Flow.andThenCount] at h
          cases hr : decode_par_iters rest (usize_sub len 4) o (pos + 3) with
          | none => rw [hr] at h; simp at h
          | some q =>
            rw [hr] at h
            simp only [Option.map_some', Option.some.injEq, Prod.mk.injEq] at h
            have := decode_par_iters_le rest (usize_sub len 4) o (pos + 3) q.1 q.2.1 q.2.2 hr
            simp only [List.length_cons]
            omega
  | [], len, output, pos, it, r, out => by
    intro h
    by_cases hl : len = 0
    · simp [decode_par_iters, hl] at h; omega
    · simp only [decode_par_iters, if_neg hl, decode_par_body_nil] at h
      simp [Flow.andThenCount] at h
  | [a], len, output, pos, it, r, out => by
    intro h
    by_cases hl : len = 0
    · simp [decode_par_iters, hl] at h; omega
    · simp only [decode_par_iters, if_neg hl] at h
      have := andThenCount_none_le _ it r out h
      simp only [List.length_cons]
      omega
  | [a, b], len, output, pos, it, r, out => by
    intro h
    by_cases hl : len = 0
    · simp [decode_par_iters, hl] at h; omega
    · simp only [decode_par_iters, if_neg hl] at h
      have := andThenCount_none_le _ it r out h
      simp only [List.length_cons]
      omega
  | [a, b, c], len, output, pos, it, r, out => by
    intro h
    by_cases hl : len = 0
    · simp [decode_par_iters, hl] at h; omega
    · simp only [decode_par_iters, if_neg hl] at h
      have := andThenCount_none_le _ it r out h
      simp only [List.length_cons]
      omega

/-! ## Termination and bounds -/

theorem decode_seq_total (S O : List u8) (n : Nat) (hS : S.length = 4 * n)
    (hO : O.length = 3 * n) (hlt : 4 * n < 2 ^ 64) :
    ∃ (r : Int) (out : List u8), decode_seq S S.length O 0 = some (r, out) := by
  rcases decode_seq_split n S hS with
    hv | ⟨k, P, s0, s1, s2, s3, R, j, hSeq, hP, hPv, hj, hjv, hjn⟩
  · exact ⟨_, _, decode_seq_exact S O n hS hv hO hlt⟩
  · have hrun := decode_seq_fail_at k n j P R O s0 s1 s2 s3 hP hPv
      (by rw [← hSeq]; exact hS) hlt hO hj hjv hjn
    rw [← hSeq, ← hS] at hrun
    exact ⟨_, _, hrun⟩

theorem decode_par_total (S O : List u8) (n : Nat) (hS : S.length = 4 * n)
    (hO : O.length = 3 * n) (hlt : 4 * n < 2 ^ 64) :
    ∃ (r : Int) (out : List u8), decode_par S S.length O 0 = some (r, out) := by
  rcases decode_par_split n S hS with hacc | ⟨k, P, i0, i1, i2, i3, R, hSeq, hP, hk, hacc, hrej⟩
  · have hrun := decode_par_run n S [] O [] hS hacc hO hlt
    simp only [List.nil_append, List.append_nil, List.length_nil] at hrun
    rw [← hS] at hrun
    exact ⟨_, _, hrun⟩
  · have hrun := decode_par_fail_at k n P R O i0 i1 i2 i3 hP hacc hrej
      (by rw [← hSeq]; exact hS) hlt hO
    rw [← hSeq, ← hS] at hrun
    exact ⟨_, _, hrun⟩

theorem symbols_length : symbols.length = 256 := by decide!

theorem values_length : values.length = 256 := by decide!

/-- C17. Bounds and termination under the length precondition. On an input of `L` bytes,
`L % 3 == 0`, and an output buffer of `4 * (L / 3)` bytes each encoder returns after at
most `L / 3` iterations of its loop; on an input of `L` symbols, `L % 4 == 0`, and an output
buffer of `3 * (L / 4)` bytes each decoder returns after at most `L / 4` iterations. A read
of the input or a store to the output outside these buffers is undefined (no result), so
the results say that every input index read is below `L` and every output index written
is below the size of the output. The tables `symbols` and `values` have 256 entries and
are indexed by a `u8`, so every table index is below 256 and inside the table. -/
theorem bounds_and_termination :
    (∀ B O : List u8, B.length % 3 = 0 → B.length < 2 ^ 64 → O.length = 4 * (B.length / 3) →
      (∃ (it : Nat) (E : List u8), encode_seq_iters B B.length O 0 = some (it, E)
          ∧ it ≤ B.length / 3 ∧ encode_seq B B.length O 0 = some E)
      ∧ (∃ (it : Nat) (E : List u8), encode_par_iters B B.length O 0 = some (it, E)
          ∧ it ≤ B.length / 3 ∧ encode_par B B.length O 0 = some E))
    ∧ (∀ S O : List u8, S.length % 4 = 0 → S.length < 2 ^ 64 → O.length = 3 * (S.length / 4) →
      (∃ (it : Nat) (r : Int) (out : List u8),
          decode_seq_iters S S.length O 0 = some (it, r, out)
          ∧ it ≤ S.length / 4 ∧ decode_seq S S.length O 0 = some (r, out))
      ∧ (∃ (it : Nat) (r : Int) (out : List u8),
          decode_par_iters S S.length O 0 = some (it, r, out)
          ∧ it ≤ S.length / 4 ∧ decode_par S S.length O 0 = some (r, out)))
    ∧ symbols.length = 256 ∧ values.length = 256
    ∧ (∀ i : u8, i.val < symbols.length ∧ i.val < values.length) := by
  refine ⟨?_, ?_, symbols_length, values_length, ?_⟩
  · intro B O h3 hlt hO
    have hB : B.length = 3 * (B.length / 3) := by omega
    constructor
    · have hr := encode_seq_exact B O _ hB hO (by omega)
      have hl := encode_seq_iters_snd B B.length O 0
      rw [hr] at hl
      obtain ⟨⟨it, E⟩, hit, hE⟩ := Option.map_eq_some'.mp hl
      simp only at hE
      subst hE
      have hle := encode_seq_iters_le B B.length O 0 it _ hit
      exact ⟨it, _, hit, by omega, hr⟩
    · have hr := encode_par_exact B O _ hB hO (by omega)
      have hl := encode_par_iters_snd B B.length O 0
      rw [hr] at hl
      obtain ⟨⟨it, E⟩, hit, hE⟩ := Option.map_eq_some'.mp hl
      simp only at hE
      subst hE
      have hle := encode_par_iters_le B B.length O 0 it _ hit
      exact ⟨it, _, hit, by omega, hr⟩
  · intro S O h4 hlt hO
    have hS : S.length = 4 * (S.length / 4) := by omega
    constructor
    · obtain ⟨r, out, hr⟩ := decode_seq_total S O _ hS hO (by omega)
      have hl := decode_seq_iters_snd S S.length O 0
      rw [hr] at hl
      obtain ⟨⟨it, r1, o1⟩, hit, hE⟩ := Option.map_eq_some'.mp hl
      simp only [Prod.mk.injEq] at hE
      obtain ⟨rfl, rfl⟩ := hE
      have hle := decode_seq_iters_le S S.length O 0 it _ _ hit
      exact ⟨it, _, _, hit, by omega, hr⟩
    · obtain ⟨r, out, hr⟩ := decode_par_total S O _ hS hO (by omega)
      have hl := decode_par_iters_snd S S.length O 0
      rw [hr] at hl
      obtain ⟨⟨it, r1, o1⟩, hit, hE⟩ := Option.map_eq_some'.mp hl
      simp only [Prod.mk.injEq] at hE
      obtain ⟨rfl, rfl⟩ := hE
      have hle := decode_par_iters_le S S.length O 0 it _ _ hit
      exact ⟨it, _, _, hit, by omega, hr⟩
  · intro i
    rw [symbols_length, values_length]
    exact ⟨i.isLt, i.isLt⟩

theorem bounds_and_termination_witness :
    ((∃ (it : Nat) (E : List u8),
        encode_seq_iters [77, 97, 110, 1, 2, 3] ([77, 97, 110, 1, 2, 3] : List u8).length
          [7, 7, 7, 7, 7, 7, 7, 7] 0 = some (it, E)
        ∧ it ≤ ([77, 97, 110, 1, 2, 3] : List u8).length / 3
        ∧ encode_seq [77, 97, 110, 1, 2, 3] ([77, 97, 110, 1, 2, 3] : List u8).length
          [7, 7, 7, 7, 7, 7, 7, 7] 0 = some E)
      ∧ (∃ (it : Nat) (E : List u8),
        encode_par_iters [77, 97, 110, 1, 2, 3] ([77, 97, 110, 1, 2, 3] : List u8).length
          [7, 7, 7, 7, 7, 7, 7, 7] 0 = some (it, E)
        ∧ it ≤ ([77, 97, 110, 1, 2, 3] : List u8).length / 3
        ∧ encode_par [77, 97, 110, 1, 2, 3] ([77, 97, 110, 1, 2, 3] : List u8).length
          [7, 7, 7, 7, 7, 7, 7, 7] 0 = some E))
    ∧ ((∃ (it : Nat) (r : Int) (out : List u8),
        decode_seq_iters [84, 87, 70, 117, 84, 33, 70, 117]
          ([84, 87, 70, 117, 84, 33, 70, 117] : List u8).length [7, 7, 7, 7, 7, 7] 0
          = some (it, r, out)
        ∧ it ≤ ([84, 87, 70, 117, 84, 33, 70, 117] : List u8).length / 4
        ∧ decode_seq [84, 87, 70, 117, 84, 33, 70, 117]
          ([84, 87, 70, 117, 84, 33, 70, 117] : List u8).length [7, 7, 7, 7, 7, 7] 0
          = some (r, out))
      ∧ (∃ (it : Nat) (r : Int) (out : List u8),
        decode_par_iters [84, 87, 70, 117, 84, 33, 70, 117]
          ([84, 87, 70, 117, 84, 33, 70, 117] : List u8).length [7, 7, 7, 7, 7, 7] 0
          = some (it, r, out)
        ∧ it ≤ ([84, 87, 70, 117, 84, 33, 70, 117] : List u8).length / 4
        ∧ decode_par [84, 87, 70, 117, 84, 33, 70, 117]
          ([84, 87, 70, 117, 84, 33, 70, 117] : List u8).length [7, 7, 7, 7, 7, 7] 0
          = some (r, out))) :=
  ⟨bounds_and_termination.1 [77, 97, 110, 1, 2, 3] [7, 7, 7, 7, 7, 7, 7, 7] (by decide)
      (by decide) (by decide),
   bounds_and_termination.2.1 [84, 87, 70, 117, 84, 33, 70, 117] [7, 7, 7, 7, 7, 7]
      (by decide) (by decide) (by decide)⟩

end Ref
